import Mathlib

/-!
Verification of the GPU resource bookkeeping core of BrowserX
(`src/crates/webgpu_x/src/memory/buddy_allocator.rs`, `staging_belt.rs`,
`buffer_pool.rs`, `src/crates/webgpu_x/src/pipeline/cache.rs`).

The Rust structures are embedded shallowly: `u64`/`u32`/`usize` values become
`Nat` (all arithmetic in the verified operations stays far below `2 ^ 64` in
every state reachable from a constructor, so machine wrap-around never
triggers), `HashMap` becomes an association list whose insert overwrites the
previous binding of a key, `Vec` becomes `List` (with `push` appending,
`pop` taking the last element and `swap_remove` modelled exactly), and the
ambient wall clock (`Self::timestamp()`) becomes an explicit `now` argument.
Bounded recursion in the Rust source (`allocate_order`, `free_order`, which
recurse from `order` up to `max_order`) is given the structural fuel
`max_order + 1 - order` resp. `max_order - order`, which is exactly the
number of recursive steps the source can take; the fuel-exhausted branches
coincide with the source behaviour at `order = max_order`.
-/

namespace BrowserX

/-- First index whose element satisfies `p`; models Rust `Iterator::position`. -/
def position {α : Type} (p : α → Bool) : List α → Option Nat
  | [] => none
  | a :: l => if p a then some 0 else (position p l).map (· + 1)

/-- Models `Vec::swap_remove(pos)`: overwrite index `pos` with the last
element, then pop the last element. -/
def swapRemove (l : List Nat) (pos : Nat) : List Nat :=
  (l.set pos (l.getLastD 0)).dropLast

/-- Models `HashMap::insert` on an association list: any existing binding of
the key is overwritten. -/
def insertAssoc {β : Type} (k : Nat) (v : β) (m : List (Nat × β)) : List (Nat × β) :=
  (k, v) :: m.filter (fun p => p.1 != k)

/-- Models a `HashMap` key lookup on an association list. -/
def lookupAssoc {β : Type} (m : List (Nat × β)) (k : Nat) : Option β :=
  match m.find? (fun p => p.1 == k) with
  | some p => some p.2
  | none => none

/-- Models the removal part of `HashMap::remove`. -/
def eraseAssoc {β : Type} (k : Nat) (m : List (Nat × β)) : List (Nat × β) :=
  m.filter (fun p => p.1 != k)

/-- Models an in-place `HashMap::get_mut` update of the binding of `k`. -/
def updateAssoc {β : Type} (k : Nat) (f : β → β) : List (Nat × β) → List (Nat × β)
  | [] => []
  | (k', v) :: rest =>
    if k' == k then (k', f v) :: rest else (k', v) :: updateAssoc k f rest

/-- Fuel-driven test used by `is_power_of_two`; the fuel `n` always suffices
because the argument halves at every step. -/
def powTwoCheck : Nat → Nat → Bool
  | 0, _ => false
  | fuel + 1, n =>
    if n == 1 then true
    else if n % 2 == 1 || n == 0 then false
    else powTwoCheck fuel (n / 2)

/-- Models `u64::is_power_of_two`. -/
def is_power_of_two (n : Nat) : Bool := powTwoCheck n n

/-- Fuel-driven core of `next_power_of_two`. -/
def nextPowAux : Nat → Nat → Nat
  | 0, _ => 1
  | fuel + 1, n => if n ≤ 1 then 1 else 2 * nextPowAux fuel ((n + 1) / 2)

/-- Models `u64::next_power_of_two`: the least power of two `≥ n` (with
`next_power_of_two 0 = 1`, as for `u64`). -/
def next_power_of_two (n : Nat) : Nat := nextPowAux n n

/-- Fuel-driven core of `trailing_zeros`; the argument halves at every step. -/
def trailingZerosAux : Nat → Nat → Nat
  | 0, _ => 0
  | fuel + 1, n => if n % 2 == 1 then 0 else trailingZerosAux fuel (n / 2) + 1

/-- Models `u64::trailing_zeros` (which returns 64 on input 0). -/
def trailing_zeros (n : Nat) : Nat := if n == 0 then 64 else trailingZerosAux n n

/-! ## BuddyAllocator (`memory/buddy_allocator.rs`) -/

structure BuddyAllocator where
  size : Nat
  min_block_size : Nat
  max_order : Nat
  /-- `free_lists[order]` = list of free offsets at that order. -/
  free_lists : List (List Nat)
  /-- offset -> order, for live allocations. -/
  allocated : List (Nat × Nat)
  deriving DecidableEq, Repr

/-- Outcome of `BuddyAllocator::new`: either the constructed allocator or a
Rust `assert!` panic with its message. -/
inductive NewResult where
  | ok (a : BuddyAllocator)
  | panic (msg : String)
  deriving DecidableEq, Repr

def NewResult.isPanic : NewResult → Bool
  | .ok _ => false
  | .panic _ => true

namespace BuddyAllocator

/-- Models `BuddyAllocator::new`.  The source guards the three configuration
conditions with `assert!`, so an invalid configuration aborts with the
assertion message instead of returning a value. -/
def new (size min_block_size : Nat) : NewResult :=
  if !is_power_of_two size then .panic "Size must be power of 2"
  else if !is_power_of_two min_block_size then .panic "Min block size must be power of 2"
  else if size < min_block_size then .panic "Size must be >= min block size"
  else
    let max_order := trailing_zeros (size / min_block_size)
    .ok { size := size
          min_block_size := min_block_size
          max_order := max_order
          free_lists := (List.replicate (max_order + 1) []).set max_order [0]
          allocated := [] }

/-- Models `BuddyAllocator::allocate_order`.  The source recurses from
`order` up to at most `max_order`; the structural fuel `max_order + 1 - order`
used at the call site makes the fuel-exhausted branch unreachable. -/
def allocate_order : Nat → BuddyAllocator → Nat → Option (Nat × BuddyAllocator)
  | 0, _, _ => none
  | fuel + 1, st, order =>
    let fl := st.free_lists.getD order []
    if !fl.isEmpty then
      some (fl.getLastD 0, { st with free_lists := st.free_lists.set order fl.dropLast })
    else if order < st.max_order then
      match allocate_order fuel st (order + 1) with
      | none => none
      | some (offset, st') =>
        let block_size := st.min_block_size * 2 ^ order
        let buddy_offset := offset + block_size
        some (offset,
          { st' with free_lists :=
              st'.free_lists.set order ((st'.free_lists.getD order []) ++ [buddy_offset]) })
    else none

/-- Models `BuddyAllocator::allocate`; returns the result together with the
updated allocator (the source mutates `&mut self`). -/
def allocate (st : BuddyAllocator) (size : Nat) : Option Nat × BuddyAllocator :=
  let size2 := next_power_of_two (max size st.min_block_size)
  let order := trailing_zeros (size2 / st.min_block_size)
  if st.max_order < order then (none, st)
  else
    match allocate_order (st.max_order + 1 - order) st order with
    | none => (none, st)
    | some (offset, st') =>
      (some offset, { st' with allocated := insertAssoc offset order st'.allocated })

/-- Models `BuddyAllocator::free_order`.  The source recurses (only when
`order < max_order`) with `order + 1`; the fuel `max_order - order` used at
the call site is exactly the number of possible steps, and the
fuel-exhausted branch (reached only when `order ≥ max_order`) performs the
same push as the source does there. -/
def free_order : Nat → BuddyAllocator → Nat → Nat → BuddyAllocator
  | 0, st, offset, order =>
    { st with free_lists := st.free_lists.set order ((st.free_lists.getD order []) ++ [offset]) }
  | fuel + 1, st, offset, order =>
    if order < st.max_order then
      let block_size := st.min_block_size * 2 ^ order
      let buddy_offset := offset ^^^ block_size
      match position (fun x => x == buddy_offset) (st.free_lists.getD order []) with
      | some pos =>
        let fl' := swapRemove (st.free_lists.getD order []) pos
        let st' := { st with free_lists := st.free_lists.set order fl' }
        free_order fuel st' (min offset buddy_offset) (order + 1)
      | none =>
        { st with free_lists := st.free_lists.set order ((st.free_lists.getD order []) ++ [offset]) }
    else
      { st with free_lists := st.free_lists.set order ((st.free_lists.getD order []) ++ [offset]) }

/-- Models `BuddyAllocator::free`. -/
def free (st : BuddyAllocator) (offset : Nat) : Bool × BuddyAllocator :=
  match lookupAssoc st.allocated offset with
  | none => (false, st)
  | some order =>
    let st' := { st with allocated := eraseAssoc offset st.allocated }
    (true, free_order (st'.max_order - order) st' offset order)

/-- Models `AllocatorStats` (the `f64` field `fragmentation`, derived as
`free_bytes / size`, is floating point and is not re-stated here). -/
structure Stats where
  total_size : Nat
  allocated_blocks : Nat
  free_blocks : Nat
  allocated_bytes : Nat
  free_bytes : Nat
  deriving DecidableEq, Repr

/-- Models `BuddyAllocator::stats`; `self.size - allocated_bytes` is `u64`
subtraction, exact whenever `allocated_bytes ≤ size` (proved below for every
reachable state). -/
def stats (st : BuddyAllocator) : Stats :=
  let total_allocated := st.allocated.length
  let total_free := (st.free_lists.map List.length).sum
  let allocated_bytes := (st.allocated.map (fun p => st.min_block_size * 2 ^ p.2)).sum
  { total_size := st.size
    allocated_blocks := total_allocated
    free_blocks := total_free
    allocated_bytes := allocated_bytes
    free_bytes := st.size - allocated_bytes }

end BuddyAllocator

/-- States reachable from `BuddyAllocator::new size mbs` by any sequence of
`allocate` / `free` calls. -/
inductive Reached (size mbs : Nat) : BuddyAllocator → Prop
  | init (st : BuddyAllocator) : BuddyAllocator.new size mbs = .ok st → Reached size mbs st
  | alloc (st : BuddyAllocator) (s : Nat) :
      Reached size mbs st → Reached size mbs (st.allocate s).2
  | dealloc (st : BuddyAllocator) (o : Nat) :
      Reached size mbs st → Reached size mbs (st.free o).2

/-! ## StagingBelt (`memory/staging_belt.rs`) -/

structure Chunk where
  /-- GPU buffer handle. -/
  buffer_handle : Nat
  size : Nat
  /-- Current write offset. -/
  offset : Nat
  capacity : Nat
  deriving DecidableEq, Repr

instance : Inhabited Chunk := ⟨⟨0, 0, 0, 0⟩⟩

/-- The belt's `mpsc::channel` endpoints are both owned by the belt itself;
the channel contents are modelled as a FIFO list (`send` appends, `try_recv`
takes from the front until empty). -/
structure StagingBelt where
  chunk_size : Nat
  active_chunks : List Chunk
  free_chunks : List Chunk
  channel : List Chunk
  next_buffer_id : Nat
  deriving DecidableEq, Repr

structure StagingWrite where
  buffer_handle : Nat
  offset : Nat
  size : Nat
  deriving DecidableEq, Repr

structure StagingBeltStats where
  active_chunks : Nat
  free_chunks : Nat
  chunk_size : Nat
  total_allocated : Nat
  deriving DecidableEq, Repr

namespace StagingBelt

/-- Models `StagingBelt::new`. -/
def new (chunk_size : Nat) : StagingBelt :=
  { chunk_size := chunk_size
    active_chunks := []
    free_chunks := []
    channel := []
    next_buffer_id := 1 }

/-- Models the scan in `get_chunk_with_space` (the source takes a mutable
reference to the first active chunk with `offset + size <= capacity`; here
the scan returns the pre-advance chunk data and the updated active list, the
advance `chunk.offset += size` from `write` already applied). -/
def writeScan (size : Nat) : List Chunk → Option (StagingWrite × List Chunk)
  | [] => none
  | c :: rest =>
    if c.offset + size ≤ c.capacity then
      some (⟨c.buffer_handle, c.offset, size⟩, { c with offset := c.offset + size } :: rest)
    else
      (writeScan size rest).map (fun r => (r.1, c :: r.2))

/-- Models `StagingBelt::write` (combined with `get_chunk_with_space`): if no
active chunk has room, pop a free chunk (resetting its offset) or create a
brand new chunk with a fresh monotonically increasing id, push it onto the
active list, and serve the write from it. -/
def write (st : StagingBelt) (size : Nat) : StagingWrite × StagingBelt :=
  match writeScan size st.active_chunks with
  | some (w, active') => (w, { st with active_chunks := active' })
  | none =>
    match st.free_chunks.getLast? with
    | some fc =>
      let c := { fc with offset := 0 }
      (⟨c.buffer_handle, 0, size⟩,
        { st with
            free_chunks := st.free_chunks.dropLast
            active_chunks := st.active_chunks ++ [{ c with offset := size }] })
    | none =>
      let c : Chunk := ⟨st.next_buffer_id, st.chunk_size, 0, st.chunk_size⟩
      (⟨c.buffer_handle, 0, size⟩,
        { st with
            next_buffer_id := st.next_buffer_id + 1
            active_chunks := st.active_chunks ++ [{ c with offset := size }] })

/-- Models `StagingBelt::finish`: every active chunk has its offset reset to
0 and is sent through the recycle channel; everything available on the
channel is then drained into the free list. -/
def finish (st : StagingBelt) : StagingBelt :=
  let sent := st.channel ++ st.active_chunks.map (fun c => { c with offset := 0 })
  { st with
      active_chunks := []
      channel := []
      free_chunks := st.free_chunks ++ sent }

/-- Models `StagingBelt::stats`. -/
def stats (st : StagingBelt) : StagingBeltStats :=
  { active_chunks := st.active_chunks.length
    free_chunks := st.free_chunks.length
    chunk_size := st.chunk_size
    total_allocated := (st.active_chunks.length + st.free_chunks.length) * st.chunk_size }

end StagingBelt

/-- Belt states reachable from `StagingBelt::new chunk_size` by any sequence
of `write` / `finish` calls. -/
inductive BeltReached (chunk_size : Nat) : StagingBelt → Prop
  | init : BeltReached chunk_size (StagingBelt.new chunk_size)
  | write (st : StagingBelt) (s : Nat) :
      BeltReached chunk_size st → BeltReached chunk_size (st.write s).2
  | finish (st : StagingBelt) :
      BeltReached chunk_size st → BeltReached chunk_size st.finish

/-! ## BufferPool (`memory/buffer_pool.rs`) -/

structure PooledBuffer where
  size : Nat
  /-- `wgpu::BufferUsages` bits. -/
  usage : Nat
  /-- Timestamp (milliseconds). -/
  last_used : Nat
  /-- `u8` flag, 0 or 1. -/
  in_use : Nat
  deriving DecidableEq, Repr

instance : Inhabited PooledBuffer := ⟨⟨0, 0, 0, 0⟩⟩

structure BufferPoolConfig where
  max_buffers : Nat
  max_total_size : Nat
  eviction_timeout_ms : Nat
  enable_size_classes : Nat
  deriving DecidableEq, Repr

structure BufferPool where
  /-- handle -> buffer. -/
  buffers : List (Nat × PooledBuffer)
  config : BufferPoolConfig
  total_size : Nat
  hits : Nat
  misses : Nat
  deriving DecidableEq, Repr

structure BufferPoolStats where
  total_buffers : Nat
  in_use : Nat
  total_size_bytes : Nat
  hits : Nat
  misses : Nat
  deriving DecidableEq, Repr

namespace BufferPool

/-- Models `BufferPool::new`. -/
def new (config : BufferPoolConfig) : BufferPool :=
  { buffers := [], config := config, total_size := 0, hits := 0, misses := 0 }

/-- The configuration of the process-wide `BUFFER_POOL` `lazy_static`. -/
def defaultConfig : BufferPoolConfig :=
  { max_buffers := 100
    max_total_size := 256 * 1024 * 1024
    eviction_timeout_ms := 60000
    enable_size_classes := 1 }

/-- Models the `for (handle, buffer) in &mut self.buffers` scan in `acquire`:
the first resident entry with `in_use == 0 && buffer.size >= size &&
buffer.usage == usage` is marked in use with a refreshed `last_used`, and its
handle is returned. -/
def acquireScan (now size usage : Nat) :
    List (Nat × PooledBuffer) → Option (Nat × List (Nat × PooledBuffer))
  | [] => none
  | (h, b) :: rest =>
    if b.in_use == 0 && decide (size ≤ b.size) && b.usage == usage then
      some (h, (h, { b with in_use := 1, last_used := now }) :: rest)
    else
      (acquireScan now size usage rest).map (fun r => (r.1, (h, b) :: r.2))

/-- Models `BufferPool::evict_old_buffers`: drop every entry with
`in_use == 0 && now - last_used > timeout` and subtract its size.
(`now - buf.last_used` is `u64` subtraction; `now` is monotone in any actual
run, so the truncated `Nat` subtraction agrees.) -/
def evict_old_buffers (p : BufferPool) (now : Nat) : BufferPool :=
  let stale := fun q : Nat × PooledBuffer =>
    q.2.in_use == 0 && decide (p.config.eviction_timeout_ms < now - q.2.last_used)
  { p with
      buffers := p.buffers.filter (fun q => !stale q)
      total_size := p.total_size - ((p.buffers.filter stale).map (fun q => q.2.size)).sum }

/-- Models `BufferPool::acquire` (with `Self::timestamp()` passed in as
`now`).  When no suitable buffer exists the source increments the miss
counter, possibly runs one eviction pass when over capacity, and returns
`None` on every path (creating the real buffer is the caller's job). -/
def acquire (p : BufferPool) (now size usage : Nat) : Option Nat × BufferPool :=
  match acquireScan now size usage p.buffers with
  | some (h, buffers') =>
    (some h, { p with buffers := buffers', hits := p.hits + 1 })
  | none =>
    let p1 := { p with misses := p.misses + 1 }
    if p1.config.max_buffers ≤ p1.buffers.length ∨
        p1.config.max_total_size < p1.total_size + size then
      (none, evict_old_buffers p1 now)
    else
      (none, p1)

/-- Models `BufferPool::release` (a `get_mut` update; no-op for an unknown
handle). -/
def release (p : BufferPool) (now handle : Nat) : BufferPool :=
  { p with buffers :=
      updateAssoc handle (fun b => { b with in_use := 0, last_used := now }) p.buffers }

/-- Models `BufferPool::add`. -/
def add (p : BufferPool) (now handle size usage : Nat) : BufferPool :=
  { p with
      buffers := insertAssoc handle ⟨size, usage, now, 0⟩ p.buffers
      total_size := p.total_size + size }

/-- Models `BufferPool::remove`. -/
def remove (p : BufferPool) (handle : Nat) : BufferPool :=
  match lookupAssoc p.buffers handle with
  | some b =>
    { p with buffers := eraseAssoc handle p.buffers, total_size := p.total_size - b.size }
  | none => p

/-- Models `buffer_pool_stats` (its `f64` field `hit_rate`, derived as
`hits / (hits + misses)`, is floating point and is not re-stated here). -/
def stats (p : BufferPool) : BufferPoolStats :=
  { total_buffers := p.buffers.length
    in_use := (p.buffers.filter (fun q => q.2.in_use != 0)).length
    total_size_bytes := p.total_size
    hits := p.hits
    misses := p.misses }

end BufferPool

/-! ## PipelineCache (`pipeline/cache.rs`) -/

structure CachedPipeline where
  handle : Nat
  hash : Nat
  created_at : Nat
  hit_count : Nat
  deriving DecidableEq, Repr

structure PipelineCache where
  /-- descriptor hash -> cached entry. -/
  render_pipelines : List (Nat × CachedPipeline)
  compute_pipelines : List (Nat × CachedPipeline)
  total_hits : Nat
  total_misses : Nat
  deriving DecidableEq, Repr

namespace PipelineCache

/-- Models `PipelineCache::new`. -/
def new : PipelineCache :=
  { render_pipelines := [], compute_pipelines := [], total_hits := 0, total_misses := 0 }

/-- Models the `HashMap::get_mut` in the lookups: find the entry keyed by
`hash`, bump its `hit_count`, and return its handle. -/
def lookupBump (hash : Nat) :
    List (Nat × CachedPipeline) → Option (Nat × List (Nat × CachedPipeline))
  | [] => none
  | (k, e) :: rest =>
    if k == hash then
      some (e.handle, (k, { e with hit_count := e.hit_count + 1 }) :: rest)
    else
      (lookupBump hash rest).map (fun r => (r.1, (k, e) :: r.2))

/-- Models `PipelineCache::lookup_render_pipeline`. -/
def lookup_render_pipeline (c : PipelineCache) (hash : Nat) : Option Nat × PipelineCache :=
  match lookupBump hash c.render_pipelines with
  | some (h, m') => (some h, { c with render_pipelines := m', total_hits := c.total_hits + 1 })
  | none => (none, { c with total_misses := c.total_misses + 1 })

/-- Models `PipelineCache::cache_render_pipeline` (with `Self::timestamp()`
passed in as `now`). -/
def cache_render_pipeline (c : PipelineCache) (now hash handle : Nat) : PipelineCache :=
  { c with render_pipelines :=
      insertAssoc hash ⟨handle, hash, now, 0⟩ c.render_pipelines }

/-- Models `PipelineCache::lookup_compute_pipeline`. -/
def lookup_compute_pipeline (c : PipelineCache) (hash : Nat) : Option Nat × PipelineCache :=
  match lookupBump hash c.compute_pipelines with
  | some (h, m') => (some h, { c with compute_pipelines := m', total_hits := c.total_hits + 1 })
  | none => (none, { c with total_misses := c.total_misses + 1 })

/-- Models `PipelineCache::cache_compute_pipeline`. -/
def cache_compute_pipeline (c : PipelineCache) (now hash handle : Nat) : PipelineCache :=
  { c with compute_pipelines :=
      insertAssoc hash ⟨handle, hash, now, 0⟩ c.compute_pipelines }

end PipelineCache

/-! ## Invariant layer for the buddy allocator -/

/-- Size in bytes of a block at order `k` (the source's
`min_block_size * (1 << order)`). -/
def blockSize (mbs k : Nat) : Nat := mbs * 2 ^ k

/-- One-past-the-end byte of a block given as an (offset, order) pair. -/
def blockEnd (mbs : Nat) (b : Nat × Nat) : Nat := b.1 + blockSize mbs b.2

/-- The byte ranges of two (offset, order) blocks are disjoint. -/
def BlocksDisj (mbs : Nat) (a b : Nat × Nat) : Prop :=
  blockEnd mbs a ≤ b.1 ∨ blockEnd mbs b ≤ a.1

/-- All (offset, order) pairs stored in a family of free lists, the first
list being at order `base`. -/
def flOffsets : List (List Nat) → Nat → List (Nat × Nat)
  | [], _ => []
  | fl :: rest, k => fl.map (fun o => (o, k)) ++ flOffsets rest (k + 1)

/-- The free blocks of an allocator as (offset, order) pairs. -/
def freeBlocks (st : BuddyAllocator) : List (Nat × Nat) := flOffsets st.free_lists 0

/-- Every block the allocator tracks: free blocks followed by the live
allocations. -/
def allBlocks (st : BuddyAllocator) : List (Nat × Nat) := freeBlocks st ++ st.allocated

/-- The block family is a well-formed decomposition of the arena: each block
is aligned to its own size and inside the arena, the byte ranges are
pairwise disjoint, and the block sizes sum to the arena size. -/
structure GoodBlocks (mbs size : Nat) (L : List (Nat × Nat)) : Prop where
  aligned : ∀ b ∈ L, blockSize mbs b.2 ∣ b.1
  bounded : ∀ b ∈ L, blockEnd mbs b ≤ size
  disj : L.Pairwise (BlocksDisj mbs)
  conserve : (L.map (fun b => blockSize mbs b.2)).sum = size

/-- The inductive invariant of `BuddyAllocator`. -/
structure Inv (st : BuddyAllocator) : Prop where
  pow : ∃ j, st.min_block_size = 2 ^ j
  len : st.free_lists.length = st.max_order + 1
  size_eq : st.size = blockSize st.min_block_size st.max_order
  orders : ∀ p ∈ st.allocated, p.2 ≤ st.max_order
  good : GoodBlocks st.min_block_size st.size (allBlocks st)

/-! Concrete allocator states used by the scenario claims: the trace of
`create(1024, 64)`, `allocate(100)`, `allocate(100)`, `free(0)`,
`free(128)`. -/

def buddy0 : BuddyAllocator := ⟨1024, 64, 4, [[], [], [], [], [0]], []⟩

def buddy1 : BuddyAllocator := ⟨1024, 64, 4, [[], [128], [256], [512], []], [(0, 1)]⟩

def buddy2 : BuddyAllocator := ⟨1024, 64, 4, [[], [], [256], [512], []], [(128, 1), (0, 1)]⟩

def buddy3 : BuddyAllocator := ⟨1024, 64, 4, [[], [0], [256], [512], []], [(128, 1)]⟩

def buddy4 : BuddyAllocator := ⟨1024, 64, 4, [[], [], [], [], [0]], []⟩

/-- The structural invariant of a staging belt: the chunk size is the one the
belt was created with, every tracked chunk has that capacity, and the recycle
channel is empty between calls (`finish` drains everything it sends). -/
structure BeltInv (cs : Nat) (st : StagingBelt) : Prop where
  csize : st.chunk_size = cs
  caps : ∀ c ∈ st.active_chunks ++ st.free_chunks, c.capacity = cs
  chan : st.channel = []

/-! ## Auxiliary lemmas: the fuel-driven numeric helpers -/

theorem nextPowAux_pow (fuel : Nat) : ∀ n : Nat, ∃ c, nextPowAux fuel n = 2 ^ c := by
  induction fuel with
  | zero => intro n; exact ⟨0, rfl⟩
  | succ fuel ih =>
    intro n
    by_cases h : n ≤ 1
    · exact ⟨0, by simp [nextPowAux, h]⟩
    · obtain ⟨c, hc⟩ := ih ((n + 1) / 2)
      refine ⟨c + 1, ?_⟩
      simp only [nextPowAux, if_neg h, hc, pow_succ]
      ring

theorem nextPowAux_ge (fuel : Nat) : ∀ n : Nat, n ≤ fuel → n ≤ nextPowAux fuel n := by
  induction fuel with
  | zero => intro n h; omega
  | succ fuel ih =>
    intro n h
    by_cases h1 : n ≤ 1
    · simp only [nextPowAux]
      rw [if_pos h1]
      omega
    · have h2 : (n + 1) / 2 ≤ fuel := by omega
      have h3 := ih ((n + 1) / 2) h2
      simp only [nextPowAux, if_neg h1]
      omega

theorem next_power_of_two_pow (n : Nat) : ∃ c, next_power_of_two n = 2 ^ c :=
  nextPowAux_pow n n

theorem le_next_power_of_two (n : Nat) : n ≤ next_power_of_two n :=
  nextPowAux_ge n n le_rfl

theorem trailingZerosAux_pow (fuel : Nat) :
    ∀ k : Nat, 2 ^ k ≤ fuel → trailingZerosAux fuel (2 ^ k) = k := by
  induction fuel with
  | zero =>
    intro k h
    have := Nat.one_le_two_pow (n := k)
    omega
  | succ fuel ih =>
    intro k h
    cases k with
    | zero => simp [trailingZerosAux]
    | succ k =>
      have h1 : (1 : Nat) ≤ 2 ^ k := Nat.one_le_two_pow
      have hmod : 2 ^ (k + 1) % 2 = 0 := by
        rw [pow_succ]; simp [Nat.mul_mod_left]
      have hdiv : 2 ^ (k + 1) / 2 = 2 ^ k := by
        rw [pow_succ]; simp
      have hle : 2 ^ k ≤ fuel := by
        rw [pow_succ] at h; omega
      simp [trailingZerosAux, hmod, hdiv, ih k hle]

theorem trailing_zeros_pow (k : Nat) : trailing_zeros (2 ^ k) = k := by
  have h : 2 ^ k ≠ 0 := (Nat.two_pow_pos k).ne'
  simp [trailing_zeros, h, trailingZerosAux_pow (2 ^ k) k le_rfl]

theorem powTwoCheck_sound (fuel : Nat) :
    ∀ n : Nat, powTwoCheck fuel n = true → ∃ k, n = 2 ^ k := by
  induction fuel with
  | zero => intro n h; simp [powTwoCheck] at h
  | succ fuel ih =>
    intro n h
    by_cases h1 : n = 1
    · exact ⟨0, by simp [h1]⟩
    · by_cases h2 : n % 2 = 1
      · simp [powTwoCheck, h1, h2] at h
      · by_cases h3 : n = 0
        · simp [powTwoCheck, h1, h2, h3] at h
        · simp [powTwoCheck, h1, h2, h3] at h
          obtain ⟨k, hk⟩ := ih (n / 2) h
          refine ⟨k + 1, ?_⟩
          rw [pow_succ]
          omega

theorem powTwoCheck_complete (fuel : Nat) :
    ∀ k : Nat, 2 ^ k ≤ fuel → powTwoCheck fuel (2 ^ k) = true := by
  induction fuel with
  | zero =>
    intro k h
    have := Nat.one_le_two_pow (n := k)
    omega
  | succ fuel ih =>
    intro k h
    cases k with
    | zero => simp [powTwoCheck]
    | succ k =>
      have h1 : (1 : Nat) ≤ 2 ^ k := Nat.one_le_two_pow
      have hne1 : 2 ^ (k + 1) ≠ 1 := by rw [pow_succ]; omega
      have hmod : 2 ^ (k + 1) % 2 = 0 := by rw [pow_succ]; simp [Nat.mul_mod_left]
      have hne0 : 2 ^ (k + 1) ≠ 0 := by rw [pow_succ]; omega
      have hdiv : 2 ^ (k + 1) / 2 = 2 ^ k := by rw [pow_succ]; simp
      have hle : 2 ^ k ≤ fuel := by rw [pow_succ] at h; omega
      simp [powTwoCheck, hne1, hmod, hne0, hdiv, ih k hle]

theorem is_power_of_two_iff (n : Nat) : is_power_of_two n = true ↔ ∃ k, n = 2 ^ k := by
  constructor
  · exact powTwoCheck_sound n n
  · rintro ⟨k, rfl⟩
    exact powTwoCheck_complete (2 ^ k) k le_rfl

/-! ## Auxiliary lemmas: xor arithmetic of buddy offsets -/

theorem xor_mul_pow (m q r : Nat) : (q * 2 ^ m) ^^^ (r * 2 ^ m) = (q ^^^ r) * 2 ^ m := by
  apply Nat.eq_of_testBit_eq
  intro i
  rw [← Nat.shiftLeft_eq q m, ← Nat.shiftLeft_eq r m, ← Nat.shiftLeft_eq (q ^^^ r) m]
  by_cases h : m ≤ i <;>
    simp [Nat.testBit_xor, Nat.testBit_shiftLeft, h]

theorem xor_one_even {q : Nat} (h : q % 2 = 0) : q ^^^ 1 = q + 1 := by
  apply Nat.eq_of_testBit_eq
  intro i
  cases i with
  | zero =>
    have h1 : (q + 1) % 2 = 1 := by omega
    simp [Nat.testBit_xor, Nat.testBit_zero, h, h1]
  | succ i =>
    have h1 : Nat.testBit 1 (i + 1) = false := by
      have e : (1 : Nat) = 2 ^ 0 := rfl
      rw [e, Nat.testBit_two_pow]
      simp
    have h2 : (q + 1) / 2 = q / 2 := by omega
    rw [Nat.testBit_xor, h1, Nat.testBit_add_one, Nat.testBit_add_one, h2]
    simp

theorem xor_one_odd {q : Nat} (h : q % 2 = 1) : q ^^^ 1 = q - 1 := by
  apply Nat.eq_of_testBit_eq
  intro i
  cases i with
  | zero =>
    have h1 : (q - 1) % 2 = 0 := by omega
    simp [Nat.testBit_xor, Nat.testBit_zero, h, h1]
    omega
  | succ i =>
    have h1 : Nat.testBit 1 (i + 1) = false := by
      have e : (1 : Nat) = 2 ^ 0 := rfl
      rw [e, Nat.testBit_two_pow]
      simp
    have h2 : (q - 1) / 2 = q / 2 := by omega
    rw [Nat.testBit_xor, h1, Nat.testBit_add_one, Nat.testBit_add_one, h2]
    simp

/-- The buddy `o XOR 2 ^ m` of an `2 ^ m`-aligned offset `o` is the adjacent
block of the same size, and the lower of the two is aligned one order up. -/
theorem buddy_merge_facts {m o : Nat} (hd : 2 ^ m ∣ o) :
    min o (o ^^^ 2 ^ m) + 2 ^ m = max o (o ^^^ 2 ^ m) ∧
    2 ^ (m + 1) ∣ min o (o ^^^ 2 ^ m) := by
  obtain ⟨q, rfl⟩ := hd
  have hpos := Nat.two_pow_pos m
  have hcomm : 2 ^ m * q = q * 2 ^ m := Nat.mul_comm _ _
  have hone : (2 : Nat) ^ m = 1 * 2 ^ m := (Nat.one_mul _).symm
  rcases Nat.mod_two_eq_zero_or_one q with hq | hq
  · have hx : 2 ^ m * q ^^^ 2 ^ m = 2 ^ m * q + 2 ^ m := by
      rw [hcomm]
      calc q * 2 ^ m ^^^ 2 ^ m = q * 2 ^ m ^^^ 1 * 2 ^ m := by rw [← hone]
        _ = (q ^^^ 1) * 2 ^ m := xor_mul_pow m q 1
        _ = (q + 1) * 2 ^ m := by rw [xor_one_even hq]
        _ = q * 2 ^ m + 2 ^ m := by ring
    rw [hx]
    have hmin : min (2 ^ m * q) (2 ^ m * q + 2 ^ m) = 2 ^ m * q :=
      Nat.min_eq_left (Nat.le_add_right _ _)
    have hmax : max (2 ^ m * q) (2 ^ m * q + 2 ^ m) = 2 ^ m * q + 2 ^ m :=
      Nat.max_eq_right (Nat.le_add_right _ _)
    rw [hmin, hmax]
    obtain ⟨q', rfl⟩ : ∃ q', q = 2 * q' := ⟨q / 2, by omega⟩
    exact ⟨rfl, q', by rw [pow_succ]; ring⟩
  · have h1q : 1 ≤ q := by omega
    have hle : 2 ^ m ≤ 2 ^ m * q := by
      calc 2 ^ m = 2 ^ m * 1 := (Nat.mul_one _).symm
        _ ≤ 2 ^ m * q := Nat.mul_le_mul_left _ h1q
    have hx : 2 ^ m * q ^^^ 2 ^ m = 2 ^ m * q - 2 ^ m := by
      rw [hcomm]
      calc q * 2 ^ m ^^^ 2 ^ m = q * 2 ^ m ^^^ 1 * 2 ^ m := by rw [← hone]
        _ = (q ^^^ 1) * 2 ^ m := xor_mul_pow m q 1
        _ = (q - 1) * 2 ^ m := by rw [xor_one_odd hq]
        _ = q * 2 ^ m - 2 ^ m := by
            have hq' : q - 1 + 1 = q := by omega
            have hstep : (q - 1) * 2 ^ m + 2 ^ m = q * 2 ^ m := by
              calc (q - 1) * 2 ^ m + 2 ^ m = (q - 1 + 1) * 2 ^ m := by ring
                _ = q * 2 ^ m := by rw [hq']
            omega
    rw [hx]
    have hmin : min (2 ^ m * q) (2 ^ m * q - 2 ^ m) = 2 ^ m * q - 2 ^ m :=
      Nat.min_eq_right (Nat.sub_le _ _)
    have hmax : max (2 ^ m * q) (2 ^ m * q - 2 ^ m) = 2 ^ m * q :=
      Nat.max_eq_left (Nat.sub_le _ _)
    rw [hmin, hmax]
    refine ⟨by omega, ?_⟩
    obtain ⟨q', rfl⟩ : ∃ q', q = 2 * q' + 1 := ⟨q / 2, by omega⟩
    refine ⟨q', ?_⟩
    have hexp : 2 ^ m * (2 * q' + 1) = 2 ^ (m + 1) * q' + 2 ^ m := by
      rw [pow_succ]; ring
    omega

/-! ## Auxiliary lemmas: lists -/

theorem position_spec {α : Type} (p : α → Bool) :
    ∀ (l : List α) (i : Nat), position p l = some i →
      ∃ hi : i < l.length, p (l.get ⟨i, hi⟩) = true := by
  intro l
  induction l with
  | nil => intro i h; simp [position] at h
  | cons a l ih =>
    intro i h
    by_cases hp : p a
    · simp [position, hp] at h
      exact ⟨by simp [← h], by simpa [← h] using hp⟩
    · simp [position, hp] at h
      obtain ⟨j, hj, rfl⟩ := h
      obtain ⟨hlt, hget⟩ := ih j hj
      exact ⟨by simpa using hlt, by simpa using hget⟩

theorem set_perm_cons_eraseIdx (z : Nat) :
    ∀ (l : List Nat) (pos : Nat), pos < l.length →
      (l.set pos z).Perm (z :: l.eraseIdx pos) := by
  intro l
  induction l with
  | nil => intro pos h; simp at h
  | cons a l ih =>
    intro pos h
    cases pos with
    | zero => simp
    | succ pos =>
      have hp : pos < l.length := by simpa using h
      have h1 := ih pos hp
      simp only [List.set_cons_succ, List.eraseIdx_cons_succ]
      exact (h1.cons a).trans (List.Perm.swap z a _)

theorem get_cons_eraseIdx_perm :
    ∀ (l : List Nat) (pos : Nat) (h : pos < l.length),
      l.Perm (l.get ⟨pos, h⟩ :: l.eraseIdx pos) := by
  intro l
  induction l with
  | nil => intro pos h; simp at h
  | cons a l ih =>
    intro pos h
    cases pos with
    | zero => simp
    | succ pos =>
      have hp : pos < l.length := by simpa using h
      have h1 := ih pos hp
      simp only [List.eraseIdx_cons_succ, List.get_cons_succ]
      exact (h1.cons a).trans (List.Perm.swap _ a _)

theorem swapRemove_perm (l : List Nat) (pos : Nat) (h : pos < l.length) :
    (swapRemove l pos).Perm (l.eraseIdx pos) := by
  have hne : l ≠ [] := by
    intro e; subst e; simp at h
  obtain ⟨l₀, z, rfl⟩ : ∃ l₀ z, l = l₀ ++ [z] := by
    rcases List.eq_nil_or_concat l with h' | ⟨L, b, h'⟩
    · exact absurd h' hne
    · exact ⟨L, b, by simpa [List.concat_eq_append] using h'⟩
  unfold swapRemove
  rw [List.getLastD_concat]
  rcases Nat.lt_or_ge pos l₀.length with hp | hp
  · rw [List.set_append, if_pos hp, List.dropLast_concat,
      List.eraseIdx_append_of_lt_length hp]
    exact (set_perm_cons_eraseIdx z l₀ pos hp).trans (List.perm_append_singleton z _).symm
  · have hpe : pos = l₀.length := by
      have hlen : pos < l₀.length + 1 := by simpa using h
      omega
    subst hpe
    rw [List.set_append, if_neg (by omega), Nat.sub_self,
      List.eraseIdx_append_of_length_le (Nat.le_refl _), Nat.sub_self]
    simp

theorem perm_swap_append {α : Type} (X Y C : List α) :
    (X ++ (Y ++ C)).Perm (Y ++ (X ++ C)) := by
  rw [← List.append_assoc, ← List.append_assoc]
  exact List.perm_append_comm.append_right C

/-! ## Auxiliary lemmas: the flattened free-list view -/

/-- Replacing the free list at one order changes the flattened view by a
predictable local swap: both the old and the new flattened views are, up to
permutation, the (old resp. new) entries at that order in front of a common
context. -/
theorem flOffsets_set :
    ∀ (fls : List (List Nat)) (k : Nat) (fl' : List Nat) (base : Nat), k < fls.length →
      ∃ C : List (Nat × Nat),
        (flOffsets fls base).Perm ((fls.getD k []).map (fun o => (o, base + k)) ++ C) ∧
        (flOffsets (fls.set k fl') base).Perm (fl'.map (fun o => (o, base + k)) ++ C) := by
  intro fls
  induction fls with
  | nil => intro k fl' base h; simp at h
  | cons fl rest ih =>
    intro k fl' base h
    cases k with
    | zero =>
      exact ⟨flOffsets rest (base + 1), by simp [flOffsets], by simp [flOffsets]⟩
    | succ k =>
      obtain ⟨C, h1, h2⟩ := ih k fl' (base + 1) (by simpa using h)
      have hb : base + (k + 1) = base + 1 + k := by omega
      refine ⟨fl.map (fun o => (o, base)) ++ C, ?_, ?_⟩
      · show (fl.map (fun o => (o, base)) ++ flOffsets rest (base + 1)).Perm _
        simp only [List.getD_cons_succ, hb]
        exact (h1.append_left _).trans (perm_swap_append _ _ _)
      · simp only [List.set_cons_succ, hb]
        show (fl.map (fun o => (o, base)) ++ flOffsets (rest.set k fl') (base + 1)).Perm _
        exact (h2.append_left _).trans (perm_swap_append _ _ _)

theorem flOffsets_replicate_nil : ∀ (n base : Nat), flOffsets (List.replicate n []) base = [] := by
  intro n
  induction n with
  | zero => intro base; rfl
  | succ n ih => intro base; simpa [flOffsets] using ih (base + 1)

theorem mem_flOffsets_of_mem :
    ∀ (fls : List (List Nat)) (k base o : Nat), k < fls.length → o ∈ fls.getD k [] →
      (o, base + k) ∈ flOffsets fls base := by
  intro fls
  induction fls with
  | nil => intro k base o h; simp at h
  | cons fl rest ih =>
    intro k base o h hm
    cases k with
    | zero =>
      simp only [List.getD_cons_zero] at hm
      simp only [flOffsets, Nat.add_zero, List.mem_append, List.mem_map]
      exact Or.inl ⟨o, hm, rfl⟩
    | succ k =>
      have := ih k (base + 1) o (by simpa using h) (by simpa using hm)
      simp only [flOffsets, List.mem_append]
      right
      have hb : base + (k + 1) = base + 1 + k := by omega
      rw [hb]
      exact this

/-! ## Auxiliary lemmas: GoodBlocks transformations -/

theorem blockSize_pos {mbs : Nat} (h : ∃ j, mbs = 2 ^ j) (k : Nat) : 0 < blockSize mbs k := by
  obtain ⟨j, rfl⟩ := h
  exact Nat.mul_pos (Nat.two_pow_pos j) (Nat.two_pow_pos k)

theorem blocksDisj_symm {mbs : Nat} {a b : Nat × Nat} (h : BlocksDisj mbs a b) :
    BlocksDisj mbs b a := Or.symm h

theorem GoodBlocks.perm {mbs size : Nat} {L L' : List (Nat × Nat)}
    (h : GoodBlocks mbs size L) (hp : L.Perm L') : GoodBlocks mbs size L' := by
  refine ⟨fun b hb => h.aligned b (hp.mem_iff.mpr hb),
    fun b hb => h.bounded b (hp.mem_iff.mpr hb),
    ((hp.pairwise_iff (fun hab => blocksDisj_symm hab)).mp h.disj), ?_⟩
  rw [← (hp.map (fun b => blockSize mbs b.2)).sum_eq]
  exact h.conserve

/-- Splitting a block of order `k + 1` into its two halves of order `k`
preserves well-formedness of the family. -/
theorem GoodBlocks.split {mbs size o k : Nat} {C : List (Nat × Nat)}
    (h : GoodBlocks mbs size ((o, k + 1) :: C)) :
    GoodBlocks mbs size ((o, k) :: (o + blockSize mbs k, k) :: C) := by
  have hB2 : blockSize mbs (k + 1) = blockSize mbs k + blockSize mbs k := by
    unfold blockSize; rw [pow_succ]; ring
  have hd1 : blockSize mbs k ∣ blockSize mbs (k + 1) := ⟨2, by rw [hB2]; ring⟩
  have hao : blockSize mbs (k + 1) ∣ o := h.aligned (o, k + 1) (List.mem_cons_self _ _)
  have hbo : blockEnd mbs (o, k + 1) ≤ size := h.bounded (o, k + 1) (List.mem_cons_self _ _)
  have halk : blockSize mbs k ∣ o := dvd_trans hd1 hao
  have hdisj := List.pairwise_cons.mp h.disj
  unfold blockEnd at hbo
  simp only at hbo
  refine ⟨?_, ?_, ?_, ?_⟩
  · intro b hb
    rcases List.mem_cons.mp hb with rfl | hb
    · exact halk
    rcases List.mem_cons.mp hb with rfl | hb
    · exact Nat.dvd_add halk dvd_rfl
    · exact h.aligned b (List.mem_cons_of_mem _ hb)
  · intro b hb
    rcases List.mem_cons.mp hb with rfl | hb
    · unfold blockEnd
      simp only
      omega
    rcases List.mem_cons.mp hb with rfl | hb
    · unfold blockEnd
      simp only
      omega
    · exact h.bounded b (List.mem_cons_of_mem _ hb)
  · refine List.pairwise_cons.mpr ⟨?_, List.pairwise_cons.mpr ⟨?_, hdisj.2⟩⟩
    · intro b hb
      rcases List.mem_cons.mp hb with rfl | hb
      · left
        unfold blockEnd
        simp
      · have hpar := hdisj.1 b hb
        unfold BlocksDisj blockEnd at hpar ⊢
        simp only at hpar ⊢
        omega
    · intro b hb
      have hpar := hdisj.1 b hb
      unfold BlocksDisj blockEnd at hpar ⊢
      simp only at hpar ⊢
      omega
  · have hc := h.conserve
    simp only [List.map_cons, List.sum_cons] at hc ⊢
    omega

/-- Merging an aligned block of order `k` with its free buddy
(`offset XOR block_size`, as computed by `free_order`) yields the block
`min offset buddy` of order `k + 1` and preserves well-formedness. -/
theorem GoodBlocks.merge {mbs size o k : Nat} {C : List (Nat × Nat)}
    (hpow : ∃ j, mbs = 2 ^ j)
    (h : GoodBlocks mbs size ((o, k) :: (o ^^^ blockSize mbs k, k) :: C)) :
    GoodBlocks mbs size ((min o (o ^^^ blockSize mbs k), k + 1) :: C) := by
  obtain ⟨j, rfl⟩ := hpow
  have hBpow : blockSize (2 ^ j) k = 2 ^ (j + k) := by unfold blockSize; rw [pow_add]
  have hB2 : blockSize (2 ^ j) (k + 1) = blockSize (2 ^ j) k + blockSize (2 ^ j) k := by
    unfold blockSize; rw [pow_succ]; ring
  have hao : blockSize (2 ^ j) k ∣ o := h.aligned (o, k) (List.mem_cons_self _ _)
  have hfacts := buddy_merge_facts (m := j + k) (o := o) (by rw [← hBpow]; exact hao)
  rw [← hBpow] at hfacts
  have hsum := hfacts.1
  have hdvd2 : blockSize (2 ^ j) (k + 1) ∣ min o (o ^^^ blockSize (2 ^ j) k) := by
    have he : (2 : Nat) ^ (j + k + 1) = blockSize (2 ^ j) (k + 1) := by
      unfold blockSize; rw [pow_add, pow_succ]; ring
    rw [← he]
    exact hfacts.2
  have hbo1 : blockEnd (2 ^ j) (o, k) ≤ size := h.bounded _ (List.mem_cons_self _ _)
  have hbo2 : blockEnd (2 ^ j) (o ^^^ blockSize (2 ^ j) k, k) ≤ size :=
    h.bounded _ (List.mem_cons_of_mem _ (List.mem_cons_self _ _))
  have hd1 := List.pairwise_cons.mp h.disj
  have hd2 := List.pairwise_cons.mp hd1.2
  unfold blockEnd at hbo1 hbo2
  simp only at hbo1 hbo2
  have hmn1 : min o (o ^^^ blockSize (2 ^ j) k) ≤ o := Nat.min_le_left _ _
  have hmn2 : min o (o ^^^ blockSize (2 ^ j) k) ≤ o ^^^ blockSize (2 ^ j) k :=
    Nat.min_le_right _ _
  have hmx1 : o ≤ max o (o ^^^ blockSize (2 ^ j) k) := Nat.le_max_left _ _
  have hmx2 : o ^^^ blockSize (2 ^ j) k ≤ max o (o ^^^ blockSize (2 ^ j) k) :=
    Nat.le_max_right _ _
  refine ⟨?_, ?_, ?_, ?_⟩
  · intro bl hbl
    rcases List.mem_cons.mp hbl with rfl | hbl
    · exact hdvd2
    · exact h.aligned bl (List.mem_cons_of_mem _ (List.mem_cons_of_mem _ hbl))
  · intro bl hbl
    rcases List.mem_cons.mp hbl with rfl | hbl
    · unfold blockEnd
      simp only
      rcases max_choice o (o ^^^ blockSize (2 ^ j) k) with hmx | hmx <;> omega
    · exact h.bounded bl (List.mem_cons_of_mem _ (List.mem_cons_of_mem _ hbl))
  · refine List.pairwise_cons.mpr ⟨?_, hd2.2⟩
    intro c hc
    have hoc := hd1.1 c (List.mem_cons_of_mem _ hc)
    have hbc := hd2.1 c hc
    have hBc : 0 < blockSize (2 ^ j) c.2 := blockSize_pos ⟨j, rfl⟩ c.2
    unfold BlocksDisj blockEnd at hoc hbc ⊢
    simp only at hoc hbc ⊢
    rcases min_choice o (o ^^^ blockSize (2 ^ j) k) with hmn | hmn <;>
      rcases max_choice o (o ^^^ blockSize (2 ^ j) k) with hmx | hmx <;> omega
  · have hc := h.conserve
    simp only [List.map_cons, List.sum_cons] at hc ⊢
    omega

theorem append_singleton_perm {α : Type} (X C : List α) (a : α) :
    ((X ++ [a]) ++ C).Perm (a :: (X ++ C)) := by
  rw [List.append_assoc]
  exact List.perm_middle

/-- Changing the free list at one order changes `allBlocks` by replacing that
order's entries in front of a common context. -/
theorem allBlocks_free_lists_set (st : BuddyAllocator) (order : Nat) (fl' : List Nat)
    (h : order < st.free_lists.length) :
    ∃ C, (allBlocks st).Perm
        ((st.free_lists.getD order []).map (fun o => (o, order)) ++ C) ∧
      (allBlocks { st with free_lists := st.free_lists.set order fl' }).Perm
        (fl'.map (fun o => (o, order)) ++ C) := by
  obtain ⟨C, h1, h2⟩ := flOffsets_set st.free_lists order fl' 0 h
  simp only [Nat.zero_add] at h1 h2
  refine ⟨C ++ st.allocated, ?_, ?_⟩
  · have hp := h1.append_right st.allocated
    unfold allBlocks freeBlocks
    simpa [List.append_assoc] using hp
  · have hp := h2.append_right st.allocated
    unfold allBlocks freeBlocks
    simpa [List.append_assoc] using hp

/-- Pushing an offset onto the free list at `order` conses the corresponding
block onto `allBlocks`, up to permutation. -/
theorem allBlocks_push_perm (st : BuddyAllocator) (offset order : Nat)
    (h : order < st.free_lists.length) :
    (allBlocks { st with free_lists :=
        st.free_lists.set order ((st.free_lists.getD order []) ++ [offset]) }).Perm
      ((offset, order) :: allBlocks st) := by
  obtain ⟨C, h1, h2⟩ :=
    allBlocks_free_lists_set st order ((st.free_lists.getD order []) ++ [offset]) h
  refine h2.trans ?_
  rw [List.map_append]
  refine (append_singleton_perm _ _ _).trans ?_
  exact (h1.symm).cons (offset, order)

/-- `allocate_order` frame and soundness: on success the state keeps every
other field, and the returned block together with the remaining tracked
blocks is, as a family, interchangeable with the original blocks. -/
theorem allocate_order_sound :
    ∀ (fuel : Nat) (st : BuddyAllocator) (order o : Nat) (st' : BuddyAllocator),
      st.free_lists.length = st.max_order + 1 →
      order ≤ st.max_order →
      GoodBlocks st.min_block_size st.size (allBlocks st) →
      BuddyAllocator.allocate_order fuel st order = some (o, st') →
      st'.size = st.size ∧ st'.min_block_size = st.min_block_size ∧
      st'.max_order = st.max_order ∧ st'.allocated = st.allocated ∧
      st'.free_lists.length = st.free_lists.length ∧
      GoodBlocks st.min_block_size st.size ((o, order) :: allBlocks st') := by
  intro fuel
  induction fuel with
  | zero =>
    intro st order o st' _ _ _ h
    simp [BuddyAllocator.allocate_order] at h
  | succ fuel ih =>
    intro st order o st' hlen horder hgood h
    simp only [BuddyAllocator.allocate_order] at h
    by_cases hfl : (st.free_lists.getD order []).isEmpty
    · -- the free list at `order` is empty: split a larger block
      rw [hfl, Bool.not_true, if_neg (by simp)] at h
      by_cases hord : order < st.max_order
      · rw [if_pos hord] at h
        cases hrec : BuddyAllocator.allocate_order fuel st (order + 1) with
        | none => rw [hrec] at h; simp at h
        | some pr =>
          obtain ⟨offset, st₁⟩ := pr
          rw [hrec] at h
          simp only [Option.some.injEq, Prod.mk.injEq] at h
          obtain ⟨ho2, hst2⟩ := h
          obtain ⟨hsz, hmbs, hmo, hal, hln, hg⟩ :=
            ih st (order + 1) offset st₁ hlen (by omega) hgood hrec
          have hsplit := GoodBlocks.split (k := order) hg
          have hlt : order < st₁.free_lists.length := by
            rw [hln, hlen]; omega
          have hpush :=
            allBlocks_push_perm st₁ (offset + st.min_block_size * 2 ^ order) order hlt
          subst ho2
          subst hst2
          refine ⟨hsz, hmbs, hmo, hal, by simpa using hln, ?_⟩
          exact hsplit.perm (List.Perm.cons (offset, order) hpush.symm)
      · rw [if_neg hord] at h
        simp at h
    · -- pop the last free offset at `order`
      have hfl' : (st.free_lists.getD order []).isEmpty = false := by
        simpa using hfl
      rw [hfl', Bool.not_false, if_pos rfl] at h
      simp only [Option.some.injEq, Prod.mk.injEq] at h
      obtain ⟨ho, hst'⟩ := h
      have hne : st.free_lists.getD order [] ≠ [] := by
        intro e; rw [e] at hfl'; simp at hfl'
      obtain ⟨l₀, z, hconcat⟩ : ∃ l₀ z, st.free_lists.getD order [] = l₀ ++ [z] := by
        rcases List.eq_nil_or_concat (st.free_lists.getD order []) with h' | ⟨L, b, h'⟩
        · exact absurd h' hne
        · exact ⟨L, b, by simpa [List.concat_eq_append] using h'⟩
      have hoz : o = z := by rw [← ho, hconcat, List.getLastD_concat]
      subst hoz
      have hdl : (st.free_lists.getD order []).dropLast = l₀ := by
        rw [hconcat, List.dropLast_concat]
      obtain ⟨C, h1, h2⟩ := allBlocks_free_lists_set st order l₀ (by omega)
      subst hst'
      refine ⟨rfl, rfl, rfl, rfl, by simp, ?_⟩
      rw [hdl]
      refine hgood.perm ?_
      refine h1.trans ?_
      rw [hconcat, List.map_append]
      simp only [List.map_cons, List.map_nil]
      refine (append_singleton_perm _ _ _).trans ?_
      exact List.Perm.cons _ h2.symm

/-- `free_order` frame and soundness: returning an aligned block to the
family (merging buddies as long as possible) keeps the family well-formed;
only the free lists change. -/
theorem free_order_sound :
    ∀ (fuel : Nat) (st : BuddyAllocator) (offset order : Nat),
      fuel = st.max_order - order →
      st.free_lists.length = st.max_order + 1 →
      order ≤ st.max_order →
      (∃ j, st.min_block_size = 2 ^ j) →
      GoodBlocks st.min_block_size st.size ((offset, order) :: allBlocks st) →
      (BuddyAllocator.free_order fuel st offset order).size = st.size ∧
      (BuddyAllocator.free_order fuel st offset order).min_block_size = st.min_block_size ∧
      (BuddyAllocator.free_order fuel st offset order).max_order = st.max_order ∧
      (BuddyAllocator.free_order fuel st offset order).allocated = st.allocated ∧
      (BuddyAllocator.free_order fuel st offset order).free_lists.length =
        st.free_lists.length ∧
      GoodBlocks st.min_block_size st.size
        (allBlocks (BuddyAllocator.free_order fuel st offset order)) := by
  intro fuel
  induction fuel with
  | zero =>
    intro st offset order hfuel hlen horder hpow hgood
    simp only [BuddyAllocator.free_order]
    have hlt : order < st.free_lists.length := by omega
    have hperm := allBlocks_push_perm st offset order hlt
    exact ⟨by simp, by simp, by simp, by simp, by simp, hgood.perm hperm.symm⟩
  | succ fuel ih =>
    intro st offset order hfuel hlen horder hpow hgood
    have hord : order < st.max_order := by omega
    simp only [BuddyAllocator.free_order]
    rw [if_pos hord]
    cases hpos : position (fun x => x == offset ^^^ st.min_block_size * 2 ^ order)
        (st.free_lists.getD order []) with
    | none =>
      have hlt : order < st.free_lists.length := by omega
      have hperm := allBlocks_push_perm st offset order hlt
      exact ⟨by simp, by simp, by simp, by simp, by simp, hgood.perm hperm.symm⟩
    | some pos =>
      obtain ⟨hplt, hpeq⟩ := position_spec _ _ _ hpos
      have hbuddy : (st.free_lists.getD order []).get ⟨pos, hplt⟩ =
          offset ^^^ st.min_block_size * 2 ^ order := by
        simpa using hpeq
      have hfl_perm : (st.free_lists.getD order []).Perm
          ((offset ^^^ st.min_block_size * 2 ^ order) ::
            (st.free_lists.getD order []).eraseIdx pos) := by
        have hgp := get_cons_eraseIdx_perm (st.free_lists.getD order []) pos hplt
        rw [hbuddy] at hgp
        exact hgp
      have hsw := swapRemove_perm (st.free_lists.getD order []) pos hplt
      obtain ⟨C, h1, h2⟩ :=
        allBlocks_free_lists_set st order
          (swapRemove (st.free_lists.getD order []) pos) (by omega)
      have hstR := h2.trans ((hsw.map (fun o => (o, order))).append_right C)
      have hst : (allBlocks st).Perm
          ((offset ^^^ st.min_block_size * 2 ^ order, order) ::
            (((st.free_lists.getD order []).eraseIdx pos).map (fun o => (o, order)) ++ C)) := by
        refine h1.trans ?_
        have hm := (hfl_perm.map (fun o => (o, order))).append_right C
        simpa using hm
      have hchain := hst.trans (List.Perm.cons _ hstR.symm)
      have hg2 := hgood.perm (List.Perm.cons (offset, order) hchain)
      have hmerge := GoodBlocks.merge (o := offset) (k := order) hpow hg2
      have hres := ih { st with free_lists := st.free_lists.set order (swapRemove (st.free_lists.getD order []) pos) } (min offset (offset ^^^ st.min_block_size * 2 ^ order)) (order + 1) (by simp; omega) (by simp [hlen]) (by simp; omega) hpow hmerge
      obtain ⟨hsz, hmbs, hmo, hal, hln, hg⟩ := hres
      refine ⟨hsz, hmbs, hmo, hal, by simpa using hln, hg⟩

/-! ## Auxiliary lemmas: association lists -/

theorem insertAssoc_of_not_mem {β : Type} (k : Nat) (v : β) (m : List (Nat × β))
    (h : ∀ p ∈ m, p.1 ≠ k) : insertAssoc k v m = (k, v) :: m := by
  unfold insertAssoc
  congr 1
  apply List.filter_eq_self.mpr
  intro p hp
  simpa using h p hp

theorem lookupAssoc_mem {β : Type} (m : List (Nat × β)) (k : Nat) (v : β)
    (h : lookupAssoc m k = some v) : (k, v) ∈ m := by
  unfold lookupAssoc at h
  cases hf : m.find? (fun p => p.1 == k) with
  | none => rw [hf] at h; exact absurd h (by simp)
  | some p =>
    rw [hf] at h
    obtain ⟨p1, p2⟩ := p
    have hpred := List.find?_some hf
    have h1 : p1 = k := by simpa using hpred
    have h2 : p2 = v := by simpa using h
    subst h1
    subst h2
    exact List.mem_of_find?_eq_some hf

/-- Extracting a present binding whose key is unique: the list is the binding
in front of the `eraseAssoc` remainder, up to permutation. -/
theorem assoc_extract_perm (m : List (Nat × Nat)) (k v : Nat)
    (hmem : (k, v) ∈ m) (hpair : m.Pairwise (fun p q => p.1 ≠ q.1)) :
    m.Perm ((k, v) :: eraseAssoc k m) := by
  induction m with
  | nil => simp at hmem
  | cons a m ih =>
    rcases List.mem_cons.mp hmem with rfl | hmem'
    · have hhead := (List.pairwise_cons.mp hpair).1
      have he : eraseAssoc k ((k, v) :: m) = m := by
        unfold eraseAssoc
        rw [List.filter_cons_of_neg (by simp)]
        apply List.filter_eq_self.mpr
        intro q hq
        have := hhead q hq
        simpa using fun e => this e.symm
      rw [he]
    · have hpair' := (List.pairwise_cons.mp hpair).2
      have hne : a.1 ≠ k := by
        have := (List.pairwise_cons.mp hpair).1 (k, v) hmem'
        simpa using this
      have ihp := ih hmem' hpair'
      have he : eraseAssoc k (a :: m) = a :: eraseAssoc k m := by
        unfold eraseAssoc
        rw [List.filter_cons_of_pos (by simpa using hne)]
      rw [he]
      exact (List.Perm.cons a ihp).trans (List.Perm.swap _ _ _)

/-! ## Preservation of the invariant -/

/-- `allocate` preserves the invariant, and every offset it hands out is
aligned to `next_power_of_two (max s min_block_size)`. -/
theorem allocate_sound (st : BuddyAllocator) (s : Nat) (hInv : Inv st) :
    Inv (st.allocate s).2 ∧
    (∀ o, (st.allocate s).1 = some o →
      next_power_of_two (max s st.min_block_size) ∣ o) := by
  obtain ⟨hpow, hlen, hsize, horders, hgood⟩ := hInv
  unfold BuddyAllocator.allocate
  by_cases hord : st.max_order <
      trailing_zeros (next_power_of_two (max s st.min_block_size) / st.min_block_size)
  · rw [if_pos hord]
    exact ⟨⟨hpow, hlen, hsize, horders, hgood⟩, by intro o h; simp at h⟩
  · rw [if_neg hord]
    cases halloc : BuddyAllocator.allocate_order
        (st.max_order + 1 -
          trailing_zeros (next_power_of_two (max s st.min_block_size) / st.min_block_size))
        st
        (trailing_zeros (next_power_of_two (max s st.min_block_size) / st.min_block_size)) with
    | none =>
      exact ⟨⟨hpow, hlen, hsize, horders, hgood⟩, by intro o h; simp at h⟩
    | some pr =>
      obtain ⟨o, st'⟩ := pr
      obtain ⟨hsz, hmbs, hmo, hal, hln, hg⟩ :=
        allocate_order_sound _ st _ o st' hlen (by omega) hgood halloc
      -- `next_power_of_two (max s min_block_size)` is the byte size of the
      -- order that `allocate` computes
      obtain ⟨j, hj⟩ := hpow
      obtain ⟨c, hc⟩ := next_power_of_two_pow (max s st.min_block_size)
      have hmbs_le : st.min_block_size ≤ next_power_of_two (max s st.min_block_size) :=
        le_trans (le_max_right _ _) (le_next_power_of_two _)
      have hjc : j ≤ c := by
        rw [hc] at hmbs_le
        rw [hj] at hmbs_le
        exact (Nat.pow_le_pow_iff_right (by omega)).mp hmbs_le
      have hdiv : next_power_of_two (max s st.min_block_size) / st.min_block_size =
          2 ^ (c - j) := by
        rw [hc]
        rw [hj]
        exact Nat.pow_div hjc (by omega)
      have htz : trailing_zeros
          (next_power_of_two (max s st.min_block_size) / st.min_block_size) = c - j := by
        rw [hdiv, trailing_zeros_pow]
      have hbs : blockSize st.min_block_size
          (trailing_zeros (next_power_of_two (max s st.min_block_size) / st.min_block_size)) =
          next_power_of_two (max s st.min_block_size) := by
        rw [htz, hc]
        rw [hj]
        unfold blockSize
        rw [← pow_add]
        congr 1
        omega
      -- the handed-out offset is fresh in the allocation map
      have hfresh : ∀ p ∈ st'.allocated, p.1 ≠ o := by
        intro p hp
        have hdisj := (List.pairwise_cons.mp hg.disj).1 p
          (by unfold allBlocks; exact List.mem_append_right _ hp)
        have h1 := blockSize_pos ⟨j, hj⟩
          (trailing_zeros (next_power_of_two (max s st.min_block_size) / st.min_block_size))
        have h2 := blockSize_pos ⟨j, hj⟩ p.2
        unfold BlocksDisj blockEnd at hdisj
        simp only at hdisj
        omega
      have hins : insertAssoc o
          (trailing_zeros (next_power_of_two (max s st.min_block_size) / st.min_block_size))
          st'.allocated =
          (o, trailing_zeros (next_power_of_two (max s st.min_block_size) / st.min_block_size))
            :: st'.allocated :=
        insertAssoc_of_not_mem _ _ _ hfresh
      constructor
      · refine ⟨?_, ?_, ?_, ?_, ?_⟩
        · show ∃ jj, st'.min_block_size = 2 ^ jj
          rw [hmbs]
          exact ⟨j, hj⟩
        · show st'.free_lists.length = st'.max_order + 1
          rw [hln, hmo, hlen]
        · show st'.size = blockSize st'.min_block_size st'.max_order
          rw [hsz, hmbs, hmo]
          exact hsize
        · show ∀ p ∈ insertAssoc o _ st'.allocated, p.2 ≤ st'.max_order
          rw [hins, hmo, hal]
          intro p hp
          rcases List.mem_cons.mp hp with rfl | hp
          · simpa using by omega
          · exact horders p hp
        · show GoodBlocks st'.min_block_size st'.size (allBlocks _)
          rw [hmbs, hsz]
          refine hg.perm ?_
          unfold allBlocks freeBlocks
          simp only [hins]
          exact List.perm_middle.symm
      · intro o' ho'
        have hoo : o = o' := by simpa using ho'
        subst hoo
        rw [← hbs]
        exact hg.aligned _ (List.mem_cons_self _ _)

/-- `free` preserves the invariant. -/
theorem free_sound (st : BuddyAllocator) (o : Nat) (hInv : Inv st) :
    Inv (st.free o).2 := by
  obtain ⟨hpow, hlen, hsize, horders, hgood⟩ := hInv
  unfold BuddyAllocator.free
  cases hl : lookupAssoc st.allocated o with
  | none => exact ⟨hpow, hlen, hsize, horders, hgood⟩
  | some order =>
    have hmem : (o, order) ∈ st.allocated := lookupAssoc_mem _ _ _ hl
    have hord : order ≤ st.max_order := horders _ hmem
    have hpairAlloc : st.allocated.Pairwise (fun p q => p.1 ≠ q.1) := by
      have hp2 := (List.pairwise_append.mp hgood.disj).2.1
      refine hp2.imp ?_
      intro p q hpq
      have h1 := blockSize_pos hpow p.2
      have h2 := blockSize_pos hpow q.2
      unfold BlocksDisj blockEnd at hpq
      omega
    have hext := assoc_extract_perm st.allocated o order hmem hpairAlloc
    have hgood1 : GoodBlocks st.min_block_size st.size
        ((o, order) :: allBlocks { st with allocated := eraseAssoc o st.allocated }) := by
      refine hgood.perm ?_
      refine (List.Perm.append_left (freeBlocks st) hext).trans ?_
      exact List.perm_middle
    obtain ⟨hsz, hmbs, hmo, hal, hln, hg⟩ :=
      free_order_sound (st.max_order - order)
        { st with allocated := eraseAssoc o st.allocated } o order
        (by simp) hlen hord hpow hgood1
    refine ⟨?_, ?_, ?_, ?_, ?_⟩
    · rw [hmbs]
      exact hpow
    · rw [hln, hmo]
      simpa using hlen
    · rw [hsz, hmbs, hmo]
      exact hsize
    · rw [hal, hmo]
      intro p hp
      exact horders p (List.mem_of_mem_filter hp)
    · rw [hmbs, hsz]
      exact hg

theorem getD_replicate_nil : ∀ (n i : Nat), (List.replicate n ([] : List Nat)).getD i [] = [] := by
  intro n
  induction n with
  | zero => intro i; simp
  | succ n ih =>
    intro i
    cases i with
    | zero => simp [List.replicate]
    | succ i =>
      rw [List.replicate]
      simp only [List.getD_cons_succ]
      exact ih i

/-- A successfully constructed allocator satisfies the invariant. -/
theorem new_ok_inv (size mbs : Nat) (st : BuddyAllocator)
    (h : BuddyAllocator.new size mbs = .ok st) : Inv st := by
  unfold BuddyAllocator.new at h
  by_cases h1 : is_power_of_two size = true
  · by_cases h2 : is_power_of_two mbs = true
    · by_cases h3 : size < mbs
      · simp [h1, h2, h3] at h
      · simp only [h1, h2, Bool.not_true, Bool.false_eq_true, if_false, if_neg h3,
          NewResult.ok.injEq] at h
        obtain ⟨i, hi⟩ := (is_power_of_two_iff size).mp h1
        obtain ⟨j, hj⟩ := (is_power_of_two_iff mbs).mp h2
        subst hi
        subst hj
        have hji : j ≤ i := by
          have hle : 2 ^ j ≤ 2 ^ i := by omega
          exact (Nat.pow_le_pow_iff_right (by omega)).mp hle
        have hdiv : 2 ^ i / 2 ^ j = 2 ^ (i - j) :=
          Nat.pow_div hji (by omega)
        have hmo : trailing_zeros (2 ^ i / 2 ^ j) = i - j := by
          rw [hdiv, trailing_zeros_pow]
        have hbs : blockSize (2 ^ j) (i - j) = 2 ^ i := by
          unfold blockSize
          rw [← pow_add]
          congr 1
          omega
        subst h
        obtain ⟨C, hC1, hC2⟩ := flOffsets_set
          (List.replicate (trailing_zeros (2 ^ i / 2 ^ j) + 1) []) (trailing_zeros (2 ^ i / 2 ^ j))
          [0] 0 (by simp)
        rw [flOffsets_replicate_nil, getD_replicate_nil] at hC1
        have hCnil : C = [] := by
          have := hC1.symm
          simpa using this.eq_nil
        subst hCnil
        simp only [List.map_cons, List.map_nil, List.append_nil, Nat.zero_add] at hC2
        refine ⟨⟨j, rfl⟩, by simp, ?_, by simp, ?_⟩
        · show (2 : Nat) ^ i = blockSize (2 ^ j) (trailing_zeros (2 ^ i / 2 ^ j))
          rw [hmo, hbs]
        · have hgb : GoodBlocks (2 ^ j) (2 ^ i) [((0 : Nat), trailing_zeros (2 ^ i / 2 ^ j))] := by
            refine ⟨?_, ?_, ?_, ?_⟩
            · intro b hb
              rcases List.mem_cons.mp hb with rfl | hb
              · exact Dvd.intro 0 rfl
              · simp at hb
            · intro b hb
              rcases List.mem_cons.mp hb with rfl | hb
              · unfold blockEnd
                simp only [Nat.zero_add]
                rw [hmo, hbs]
              · simp at hb
            · exact List.pairwise_singleton _ _
            · simp [hmo, hbs]
          refine hgb.perm ?_
          unfold allBlocks freeBlocks
          simp only [List.append_nil]
          exact hC2.symm
    · simp [h1, h2] at h
  · simp [h1] at h

/-- Every reachable allocator state satisfies the invariant. -/
theorem reached_inv (size mbs : Nat) (st : BuddyAllocator) (h : Reached size mbs st) :
    Inv st := by
  induction h with
  | init st h0 => exact new_ok_inv size mbs st h0
  | alloc st s _ ih => exact (allocate_sound st s ih).1
  | dealloc st o _ ih => exact free_sound st o ih

/-! ## StagingBelt: invariant and write behaviour -/

theorem writeScan_none_of_no_space (s : Nat) :
    ∀ l : List Chunk, (∀ c ∈ l, ¬(c.offset + s ≤ c.capacity)) →
      StagingBelt.writeScan s l = none := by
  intro l
  induction l with
  | nil => intro _; rfl
  | cons c l ih =>
    intro h
    unfold StagingBelt.writeScan
    rw [if_neg (h c (List.mem_cons_self _ _)),
      ih (fun c' hc' => h c' (List.mem_cons_of_mem _ hc'))]
    rfl

theorem writeScan_caps (cs s : Nat) :
    ∀ (l : List Chunk) (w : StagingWrite) (l' : List Chunk),
      StagingBelt.writeScan s l = some (w, l') →
      (∀ c ∈ l, c.capacity = cs) → ∀ c ∈ l', c.capacity = cs := by
  intro l
  induction l with
  | nil => intro w l' h; simp [StagingBelt.writeScan] at h
  | cons c l ih =>
    intro w l' h hcaps
    unfold StagingBelt.writeScan at h
    by_cases hsp : c.offset + s ≤ c.capacity
    · rw [if_pos hsp] at h
      simp only [Option.some.injEq, Prod.mk.injEq] at h
      obtain ⟨-, hl'⟩ := h
      subst hl'
      intro c' hc'
      rcases List.mem_cons.mp hc' with rfl | hc'
      · exact hcaps c (List.mem_cons_self _ _)
      · exact hcaps c' (List.mem_cons_of_mem _ hc')
    · rw [if_neg hsp] at h
      cases hrec : StagingBelt.writeScan s l with
      | none => rw [hrec] at h; simp at h
      | some pr =>
        obtain ⟨w₁, l₁⟩ := pr
        rw [hrec] at h
        simp only [Option.map_some', Option.some.injEq, Prod.mk.injEq] at h
        obtain ⟨-, hl'⟩ := h
        subst hl'
        intro c' hc'
        rcases List.mem_cons.mp hc' with rfl | hc'
        · exact hcaps _ (List.mem_cons_self _ _)
        · exact ih w₁ l₁ hrec (fun d hd => hcaps d (List.mem_cons_of_mem _ hd)) c' hc'

/-- Every reachable belt state satisfies the structural invariant. -/
theorem belt_reached_inv (cs : Nat) (st : StagingBelt) (hr : BeltReached cs st) :
    BeltInv cs st := by
  induction hr with
  | init => exact ⟨rfl, by simp [StagingBelt.new], rfl⟩
  | write st s _ ih =>
    obtain ⟨hcs, hcaps, hchan⟩ := ih
    unfold StagingBelt.write
    cases hsc : StagingBelt.writeScan s st.active_chunks with
    | some pr =>
      obtain ⟨w, ac⟩ := pr
      show BeltInv cs { st with active_chunks := ac }
      refine ⟨hcs, ?_, hchan⟩
      intro c hc
      rcases List.mem_append.mp hc with hc | hc
      · exact writeScan_caps cs s st.active_chunks w ac hsc
          (fun d hd => hcaps d (List.mem_append_left _ hd)) c hc
      · exact hcaps c (List.mem_append_right _ hc)
    | none =>
      cases hfc : st.free_chunks.getLast? with
      | some fc =>
        show BeltInv cs { st with free_chunks := st.free_chunks.dropLast, active_chunks := st.active_chunks ++ [{ fc with offset := s }] }
        refine ⟨hcs, ?_, hchan⟩
        intro c hc
        rcases List.mem_append.mp hc with hc | hc
        · rcases List.mem_append.mp hc with hc | hc
          · exact hcaps c (List.mem_append_left _ hc)
          · have hm : fc ∈ st.free_chunks := List.mem_of_getLast?_eq_some hfc
            have hfcc := hcaps fc (List.mem_append_right _ hm)
            have hce : c = { fc with offset := s } := by simpa using hc
            rw [hce]
            exact hfcc
        · exact hcaps c
            (List.mem_append_right _ (List.dropLast_subset st.free_chunks hc))
      | none =>
        show BeltInv cs { st with next_buffer_id := st.next_buffer_id + 1, active_chunks := st.active_chunks ++ [{ buffer_handle := st.next_buffer_id, size := st.chunk_size, offset := s, capacity := st.chunk_size }] }
        refine ⟨hcs, ?_, hchan⟩
        intro c hc
        rcases List.mem_append.mp hc with hc | hc
        · rcases List.mem_append.mp hc with hc | hc
          · exact hcaps c (List.mem_append_left _ hc)
          · have hce : c = { buffer_handle := st.next_buffer_id, size := st.chunk_size, offset := s, capacity := st.chunk_size } := by simpa using hc
            rw [hce]
            exact hcs
        · exact hcaps c (List.mem_append_right _ hc)
  | finish st _ ih =>
    obtain ⟨hcs, hcaps, hchan⟩ := ih
    unfold StagingBelt.finish
    refine ⟨hcs, ?_, rfl⟩
    intro c hc
    simp only [hchan, List.nil_append, List.append_nil] at hc
    rcases List.mem_append.mp hc with hc | hc
    · exact hcaps c (List.mem_append_right _ hc)
    · obtain ⟨d, hd, hde⟩ := List.mem_map.mp hc
      have := hcaps d (List.mem_append_left _ hd)
      rw [← hde]
      exact this

/-! ## BufferPool and PipelineCache scan lemmas -/

theorem acquireScan_sound (now s u : Nat) :
    ∀ (l : List (Nat × PooledBuffer)) (h : Nat) (l' : List (Nat × PooledBuffer)),
      BufferPool.acquireScan now s u l = some (h, l') →
      ∃ b, (h, b) ∈ l ∧ b.in_use = 0 ∧ s ≤ b.size ∧ b.usage = u ∧
        (h, { b with in_use := 1, last_used := now }) ∈ l' := by
  intro l
  induction l with
  | nil => intro h l' hh; simp [BufferPool.acquireScan] at hh
  | cons a l ih =>
    intro h l' hh
    obtain ⟨k, b⟩ := a
    unfold BufferPool.acquireScan at hh
    by_cases hcond : (b.in_use == 0 && decide (s ≤ b.size) && b.usage == u) = true
    · rw [if_pos hcond] at hh
      simp only [Option.some.injEq, Prod.mk.injEq] at hh
      obtain ⟨hk, hl'⟩ := hh
      subst hk
      subst hl'
      simp only [Bool.and_eq_true, beq_iff_eq, decide_eq_true_eq] at hcond
      exact ⟨b, List.mem_cons_self _ _, hcond.1.1, hcond.1.2, hcond.2,
        List.mem_cons_self _ _⟩
    · rw [if_neg hcond] at hh
      cases hrec : BufferPool.acquireScan now s u l with
      | none => rw [hrec] at hh; simp at hh
      | some pr =>
        obtain ⟨h₁, l₁⟩ := pr
        rw [hrec] at hh
        simp only [Option.map_some', Option.some.injEq, Prod.mk.injEq] at hh
        obtain ⟨hk, hl'⟩ := hh
        subst hk
        subst hl'
        obtain ⟨b₁, hb1, hb2, hb3, hb4, hb5⟩ := ih _ _ hrec
        exact ⟨b₁, List.mem_cons_of_mem _ hb1, hb2, hb3, hb4,
          List.mem_cons_of_mem _ hb5⟩

theorem lookupBump_none (hash : Nat) :
    ∀ l : List (Nat × CachedPipeline), lookupAssoc l hash = none →
      PipelineCache.lookupBump hash l = none := by
  intro l
  induction l with
  | nil => intro _; rfl
  | cons a l ih =>
    intro h
    obtain ⟨k, e⟩ := a
    by_cases hk : (k == hash) = true
    · exfalso
      unfold lookupAssoc at h
      rw [List.find?_cons_of_pos _ (by simpa using hk)] at h
      simp at h
    · unfold PipelineCache.lookupBump
      rw [if_neg hk]
      have ht : lookupAssoc l hash = none := by
        unfold lookupAssoc at h ⊢
        rw [List.find?_cons_of_neg _ (by simpa using hk)] at h
        exact h
      rw [ih ht]
      rfl

theorem getD_out_of_range {l : List (List Nat)} {k : Nat} (h : l.length ≤ k) :
    l.getD k [] = [] := by
  rw [List.getD_eq_getElem?_getD, List.getElem?_eq_none h]
  rfl

/-! ## The claims -/

/-- C1 counterexample: `BuddyAllocator::new` with an invalid configuration
does not return a typed `ConfigurationError` — it takes the `assert!` panic
branch (shown here for `size < min_block_size`, a non-power-of-two size, and
a non-power-of-two min block size). -/
theorem buddy_new_invalid_config_panics :
    BuddyAllocator.new 64 128 = NewResult.panic "Size must be >= min block size" ∧
    (BuddyAllocator.new 64 128).isPanic = true ∧
    BuddyAllocator.new 3 2 = NewResult.panic "Size must be power of 2" ∧
    BuddyAllocator.new 8 3 = NewResult.panic "Min block size must be power of 2" := by
  decide

/-- C1 amended: construction validates exactly the three documented
conditions (power-of-two size, power-of-two min block size,
`size >= min_block_size`), but it rejects an invalid configuration by
panicking through `assert!` — which aborts across `buddy_allocator_create` —
rather than returning a typed `ConfigurationError`; every valid configuration
constructs the allocator. -/
theorem buddy_new_panics_iff_invalid_config (size mbs : Nat) :
    (BuddyAllocator.new size mbs).isPanic =
      (!is_power_of_two size || !is_power_of_two mbs || decide (size < mbs)) := by
  unfold BuddyAllocator.new
  cases h1 : is_power_of_two size with
  | false => simp [NewResult.isPanic]
  | true =>
    cases h2 : is_power_of_two mbs with
    | false => simp [NewResult.isPanic]
    | true =>
      by_cases h3 : size < mbs
      · simp [NewResult.isPanic, h3]
      · simp [NewResult.isPanic, h3]

/-- C2 counterexample: on a belt with `chunk_size = 1024`, `write(2000)` is
served, not rejected: it returns the region `[0, 2000)` of a fresh chunk
whose capacity is only 1024, so the returned offset plus the requested size
exceeds the chunk's capacity and no `InvalidHandle` failure is surfaced. -/
theorem staging_oversized_write_returns_out_of_bounds_region :
    ((StagingBelt.new 1024).write 2000).1 = ⟨1, 0, 2000⟩ ∧
    (((StagingBelt.new 1024).write 2000).2.active_chunks.getD 0 default).capacity = 1024 ∧
    1024 < ((StagingBelt.new 1024).write 2000).1.offset +
      ((StagingBelt.new 1024).write 2000).1.size := by
  decide

/-- C2 amended: for every reachable belt and every write of size
`s > chunk_size`, no active chunk can ever satisfy the request (the space
test fails for each of them) — but `write` does not fail: it installs a
fresh or recycled chunk and returns the region `[0, s)`, whose end exceeds
the belt's chunk capacity. -/
theorem staging_oversized_write_no_failure (cs : Nat) (st : StagingBelt) (s : Nat)
    (hr : BeltReached cs st) (hs : cs < s) :
    (∀ c ∈ st.active_chunks, ¬(c.offset + s ≤ c.capacity)) ∧
    (st.write s).1.offset = 0 ∧
    (st.write s).1.size = s ∧
    cs < (st.write s).1.offset + (st.write s).1.size := by
  obtain ⟨hcs, hcaps, hchan⟩ := belt_reached_inv cs st hr
  have hno : ∀ c ∈ st.active_chunks, ¬(c.offset + s ≤ c.capacity) := by
    intro c hc
    have := hcaps c (List.mem_append_left _ hc)
    omega
  have hscan := writeScan_none_of_no_space s st.active_chunks hno
  refine ⟨hno, ?_, ?_, ?_⟩
  · unfold StagingBelt.write
    rw [hscan]
    cases st.free_chunks.getLast? <;> rfl
  · unfold StagingBelt.write
    rw [hscan]
    cases st.free_chunks.getLast? <;> rfl
  · unfold StagingBelt.write
    rw [hscan]
    cases st.free_chunks.getLast? <;> (show cs < 0 + s; omega)

/-- C2 amended, witness: the oversized write on a fresh `chunk_size = 1024`
belt returns offset 0 and a region ending past the chunk capacity. -/
theorem staging_oversized_write_no_failure_witness :
    ((StagingBelt.new 1024).write 2000).1.offset = 0 ∧
    1024 < ((StagingBelt.new 1024).write 2000).1.offset +
      ((StagingBelt.new 1024).write 2000).1.size := by
  have h := staging_oversized_write_no_failure 1024 (StagingBelt.new 1024) 2000
    BeltReached.init (by omega)
  exact ⟨h.2.1, h.2.2.2⟩

/-- C3: on every reachable allocator state, each offset handed out by
`allocate(s)` is a multiple of `next_power_of_two (max s min_block_size)`,
every offset on `free_lists[k]` is a multiple of `min_block_size * 2 ^ k`,
and every live allocation at order `k` is a multiple of
`min_block_size * 2 ^ k`. -/
theorem buddy_allocate_alignment (size mbs : Nat) (st : BuddyAllocator)
    (hr : Reached size mbs st) :
    (∀ s o, (st.allocate s).1 = some o →
      next_power_of_two (max s st.min_block_size) ∣ o) ∧
    (∀ k, ∀ o ∈ st.free_lists.getD k [], st.min_block_size * 2 ^ k ∣ o) ∧
    (∀ p ∈ st.allocated, st.min_block_size * 2 ^ p.2 ∣ p.1) := by
  have hInv := reached_inv size mbs st hr
  refine ⟨fun s o h => (allocate_sound st s hInv).2 o h, ?_, ?_⟩
  · intro k o hm
    by_cases hk : k < st.free_lists.length
    · have hmem := mem_flOffsets_of_mem st.free_lists k 0 o hk hm
      simp only [Nat.zero_add] at hmem
      have ha := hInv.good.aligned (o, k)
        (by unfold allBlocks freeBlocks; exact List.mem_append_left _ hmem)
      simpa [blockSize] using ha
    · rw [getD_out_of_range (by omega)] at hm
      simp at hm
  · intro p hp
    have ha := hInv.good.aligned p (by unfold allBlocks; exact List.mem_append_right _ hp)
    simpa [blockSize] using ha

/-- C3 witness: for `create(1024, 64)`, `allocate(100)` returns offset 0,
which is a multiple of `next_power_of_two (max 100 64) = 128`; and in the
state with blocks at offsets 0 and 128 allocated, the live allocation
`(128, order 1)` is a multiple of `64 * 2 ^ 1`. -/
theorem buddy_allocate_alignment_witness :
    next_power_of_two (max 100 buddy0.min_block_size) ∣ 0 ∧
    buddy2.min_block_size * 2 ^ 1 ∣ 128 := by
  have hr0 : Reached 1024 64 buddy0 := Reached.init buddy0 (by decide)
  have hr1 : Reached 1024 64 buddy1 :=
    (show (buddy0.allocate 100).2 = buddy1 by decide) ▸ Reached.alloc buddy0 100 hr0
  have hr2 : Reached 1024 64 buddy2 :=
    (show (buddy1.allocate 100).2 = buddy2 by decide) ▸ Reached.alloc buddy1 100 hr1
  refine ⟨(buddy_allocate_alignment 1024 64 buddy0 hr0).1 100 0 (by decide), ?_⟩
  exact (buddy_allocate_alignment 1024 64 buddy2 hr2).2.2 (128, 1) (by decide)

/-- C4: on every reachable allocator state, the statistics satisfy
`allocated_bytes + free_bytes = size`, and in particular
`allocated_bytes ≤ size`, so the `u64` subtraction in `stats` never
underflows. -/
theorem buddy_stats_conservation (size mbs : Nat) (st : BuddyAllocator)
    (hr : Reached size mbs st) :
    (st.stats).allocated_bytes + (st.stats).free_bytes = (st.stats).total_size ∧
    (st.stats).allocated_bytes ≤ (st.stats).total_size := by
  have hInv := reached_inv size mbs st hr
  have hco := hInv.good.conserve
  unfold allBlocks at hco
  rw [List.map_append, List.sum_append] at hco
  simp only [blockSize] at hco
  constructor
  · show (st.allocated.map (fun p => st.min_block_size * 2 ^ p.2)).sum +
      (st.size - (st.allocated.map (fun p => st.min_block_size * 2 ^ p.2)).sum) = st.size
    omega
  · show (st.allocated.map (fun p => st.min_block_size * 2 ^ p.2)).sum ≤ st.size
    omega

/-- C4 witness: conservation holds on the reachable state with one live
128-byte allocation inside the 1024-byte arena. -/
theorem buddy_stats_conservation_witness :
    (buddy1.stats).allocated_bytes + (buddy1.stats).free_bytes = (buddy1.stats).total_size := by
  have hr0 : Reached 1024 64 buddy0 := Reached.init buddy0 (by decide)
  have hr1 : Reached 1024 64 buddy1 :=
    (show (buddy0.allocate 100).2 = buddy1 by decide) ▸ Reached.alloc buddy0 100 hr0
  exact (buddy_stats_conservation 1024 64 buddy1 hr1).1

/-- C5: on every reachable allocator state, the byte ranges of live
allocations are pairwise disjoint, lie inside the arena, and are disjoint
from the range of every free-list block; no offset is simultaneously a live
allocation and on a free list, and free blocks also lie inside the arena. -/
theorem buddy_blocks_disjoint (size mbs : Nat) (st : BuddyAllocator)
    (hr : Reached size mbs st) :
    st.allocated.Pairwise (fun p q =>
      p.1 + st.min_block_size * 2 ^ p.2 ≤ q.1 ∨
      q.1 + st.min_block_size * 2 ^ q.2 ≤ p.1) ∧
    (∀ p ∈ st.allocated, p.1 + st.min_block_size * 2 ^ p.2 ≤ st.size) ∧
    (∀ p ∈ st.allocated, ∀ k, ∀ o ∈ st.free_lists.getD k [],
      p.1 + st.min_block_size * 2 ^ p.2 ≤ o ∨ o + st.min_block_size * 2 ^ k ≤ p.1) ∧
    (∀ p ∈ st.allocated, ∀ k, p.1 ∉ st.free_lists.getD k []) ∧
    (∀ k, ∀ o ∈ st.free_lists.getD k [], o + st.min_block_size * 2 ^ k ≤ st.size) := by
  have hInv := reached_inv size mbs st hr
  have hdisj := hInv.good.disj
  unfold allBlocks at hdisj
  obtain ⟨hfreeP, hallocP, hcross⟩ := List.pairwise_append.mp hdisj
  refine ⟨hallocP, ?_, ?_, ?_, ?_⟩
  · intro p hp
    have hb := hInv.good.bounded p (by unfold allBlocks; exact List.mem_append_right _ hp)
    simpa [blockEnd, blockSize] using hb
  · intro p hp k o ho
    by_cases hk : k < st.free_lists.length
    · have hmem := mem_flOffsets_of_mem st.free_lists k 0 o hk ho
      simp only [Nat.zero_add] at hmem
      have hd := hcross (o, k) hmem p hp
      unfold BlocksDisj blockEnd blockSize at hd
      simp only at hd
      omega
    · rw [getD_out_of_range (by omega)] at ho
      simp at ho
  · intro p hp k hmem
    by_cases hk : k < st.free_lists.length
    · have hmemf := mem_flOffsets_of_mem st.free_lists k 0 p.1 hk hmem
      simp only [Nat.zero_add] at hmemf
      have hd := hcross (p.1, k) hmemf p hp
      have h1 := blockSize_pos hInv.pow k
      have h2 := blockSize_pos hInv.pow p.2
      unfold BlocksDisj blockEnd at hd
      simp only at hd
      omega
    · rw [getD_out_of_range (by omega)] at hmem
      simp at hmem
  · intro k o ho
    by_cases hk : k < st.free_lists.length
    · have hmem := mem_flOffsets_of_mem st.free_lists k 0 o hk ho
      simp only [Nat.zero_add] at hmem
      have hb := hInv.good.bounded (o, k)
        (by unfold allBlocks; exact List.mem_append_left _ hmem)
      simpa [blockEnd, blockSize] using hb
    · rw [getD_out_of_range (by omega)] at ho
      simp at ho

/-- C5 witness: in the reachable state with live allocations at offsets 0
and 128 (order 1), the allocation `(128, 1)` stays inside the arena and the
allocated offset 0 does not appear on the order-2 free list. -/
theorem buddy_blocks_disjoint_witness :
    128 + buddy2.min_block_size * 2 ^ 1 ≤ buddy2.size ∧
    (0 : Nat) ∉ buddy2.free_lists.getD 2 [] := by
  have hr0 : Reached 1024 64 buddy0 := Reached.init buddy0 (by decide)
  have hr1 : Reached 1024 64 buddy1 :=
    (show (buddy0.allocate 100).2 = buddy1 by decide) ▸ Reached.alloc buddy0 100 hr0
  have hr2 : Reached 1024 64 buddy2 :=
    (show (buddy1.allocate 100).2 = buddy2 by decide) ▸ Reached.alloc buddy1 100 hr1
  have h := buddy_blocks_disjoint 1024 64 buddy2 hr2
  exact ⟨h.2.1 (128, 1) (by decide), h.2.2.2.1 (0, 1) (by decide) 2⟩

/-- C6: `acquire` only ever returns the handle of a buffer that was not in
use before the call, marking it in use with a refreshed `last_used` and
bumping the hit counter; concretely, after `add(5, 1024, 0x80)` the first
`acquire(512, 0x80)` returns handle 5 with `hits = 1`, and a second
`acquire(512, 0x80)` before any release returns no handle with
`misses = 1`. -/
theorem buffer_pool_acquire_exclusive :
    (∀ (p : BufferPool) (now s u h : Nat),
      (p.acquire now s u).1 = some h →
      ∃ b, (h, b) ∈ p.buffers ∧ b.in_use = 0 ∧ s ≤ b.size ∧ b.usage = u ∧
        (h, { b with in_use := 1, last_used := now }) ∈ (p.acquire now s u).2.buffers ∧
        (p.acquire now s u).2.hits = p.hits + 1 ∧
        (p.acquire now s u).2.misses = p.misses) ∧
    (((BufferPool.new BufferPool.defaultConfig).add 0 5 1024 128).acquire 1 512 128).1 =
      some 5 ∧
    (((BufferPool.new BufferPool.defaultConfig).add 0 5 1024 128).acquire 1 512 128).2.hits =
      1 ∧
    ((((BufferPool.new BufferPool.defaultConfig).add 0 5 1024 128).acquire 1 512 128).2.acquire
      2 512 128).1 = none ∧
    ((((BufferPool.new BufferPool.defaultConfig).add 0 5 1024 128).acquire 1 512 128).2.acquire
      2 512 128).2.misses = 1 := by
  refine ⟨?_, by decide, by decide, by decide, by decide⟩
  intro p now s u h hh
  unfold BufferPool.acquire at hh ⊢
  cases hsc : BufferPool.acquireScan now s u p.buffers with
  | none =>
    rw [hsc] at hh
    by_cases hcap : p.config.max_buffers ≤ p.buffers.length ∨
        p.config.max_total_size < p.total_size + s
    · rw [if_pos hcap] at hh
      simp at hh
    · rw [if_neg hcap] at hh
      simp at hh
  | some pr =>
    obtain ⟨h₁, bl⟩ := pr
    rw [hsc] at hh
    have hh1 : h₁ = h := by simpa using hh
    subst hh1
    obtain ⟨b, hb1, hb2, hb3, hb4, hb5⟩ := acquireScan_sound now s u p.buffers h₁ bl hsc
    exact ⟨b, hb1, hb2, hb3, hb4, hb5, rfl, rfl⟩

/-- C6 witness: applying the exclusivity part to the concrete pool holding
buffer 5 (1024 bytes, usage 0x80): the successful `acquire(512, 0x80)` found
an entry that was not in use and matched the size and usage requests. -/
theorem buffer_pool_acquire_exclusive_witness :
    ∃ b, ((5 : Nat), b) ∈ ((BufferPool.new BufferPool.defaultConfig).add 0 5 1024 128).buffers ∧
      b.in_use = 0 ∧ 512 ≤ b.size ∧ b.usage = 128 ∧
      ((5 : Nat), { b with in_use := 1, last_used := 1 }) ∈
        (((BufferPool.new BufferPool.defaultConfig).add 0 5 1024 128).acquire 1 512 128).2.buffers ∧
      (((BufferPool.new BufferPool.defaultConfig).add 0 5 1024 128).acquire 1 512 128).2.hits =
        ((BufferPool.new BufferPool.defaultConfig).add 0 5 1024 128).hits + 1 ∧
      (((BufferPool.new BufferPool.defaultConfig).add 0 5 1024 128).acquire 1 512 128).2.misses =
        ((BufferPool.new BufferPool.defaultConfig).add 0 5 1024 128).misses :=
  buffer_pool_acquire_exclusive.1 ((BufferPool.new BufferPool.defaultConfig).add 0 5 1024 128)
    1 512 128 5 (by decide)

/-- C7: full coalescence — `create(1024, 64)`; `allocate(100)` returns
offset 0 (a 128-byte block); the second `allocate(100)` returns offset 128;
after `free(0)` and `free(128)` the stats report zero allocated blocks and
exactly one free block, namely offset 0 at the top order, whose byte size is
the whole 1024-byte arena. -/
theorem buddy_full_coalescence_scenario :
    BuddyAllocator.new 1024 64 = NewResult.ok buddy0 ∧
    buddy0.allocate 100 = (some 0, buddy1) ∧
    buddy1.allocate 100 = (some 128, buddy2) ∧
    buddy2.free 0 = (true, buddy3) ∧
    buddy3.free 128 = (true, buddy4) ∧
    buddy4.stats.allocated_blocks = 0 ∧
    buddy4.stats.free_blocks = 1 ∧
    buddy4.free_lists.getD buddy4.max_order [] = [0] ∧
    buddy4.min_block_size * 2 ^ buddy4.max_order = buddy4.size := by
  decide

/-- C8: `finish()` empties the active list and appends every previously
active chunk, its offset reset to 0, to the free list through the recycle
channel, so the free count grows by the prior active count; and a write
after `finish()` reuses the buffer handle of the earlier, now-finished
chunk, at offset 0. -/
theorem staging_finish_recycles (cs : Nat) (st : StagingBelt) (hr : BeltReached cs st) :
    st.finish.active_chunks = [] ∧
    st.finish.free_chunks =
      st.free_chunks ++ st.active_chunks.map (fun c => { c with offset := 0 }) ∧
    st.finish.free_chunks.length = st.free_chunks.length + st.active_chunks.length ∧
    (((StagingBelt.new 1024).write 512).1.buffer_handle = 1 ∧
      ((((StagingBelt.new 1024).write 512).2.finish).write 512).1.buffer_handle = 1 ∧
      ((((StagingBelt.new 1024).write 512).2.finish).write 512).1.offset = 0) := by
  obtain ⟨hcs, hcaps, hchan⟩ := belt_reached_inv cs st hr
  refine ⟨rfl, ?_, ?_, by decide, by decide, by decide⟩
  · unfold StagingBelt.finish
    rw [hchan]
    rfl
  · unfold StagingBelt.finish
    rw [hchan]
    simp

/-- C8 witness: on the reachable belt that has one active chunk after a
512-byte write, `finish()` leaves no active chunks and grows the free list
by that one chunk. -/
theorem staging_finish_recycles_witness :
    (((StagingBelt.new 1024).write 512).2).finish.active_chunks = [] ∧
    (((StagingBelt.new 1024).write 512).2).finish.free_chunks.length =
      (((StagingBelt.new 1024).write 512).2).free_chunks.length +
      (((StagingBelt.new 1024).write 512).2).active_chunks.length := by
  have hr : BeltReached 1024 ((StagingBelt.new 1024).write 512).2 :=
    BeltReached.write _ 512 BeltReached.init
  have h := staging_finish_recycles 1024 _ hr
  exact ⟨h.1, h.2.2.1⟩

/-- C9: staging capacity — on `create(chunk_size = 1024)`, `write(512)`
returns offset 0 in chunk 1, the second `write(512)` returns offset 512 in
the same chunk (same buffer handle, chunk now full), and `write(1)` opens a
new chunk, returning offset 0 under a distinct buffer handle, after which
`active_chunks = 2`. -/
theorem staging_capacity_scenario :
    ((StagingBelt.new 1024).write 512).1 = ⟨1, 0, 512⟩ ∧
    (((StagingBelt.new 1024).write 512).2.write 512).1 = ⟨1, 512, 512⟩ ∧
    (((StagingBelt.new 1024).write 512).2.write 512).1.buffer_handle =
      ((StagingBelt.new 1024).write 512).1.buffer_handle ∧
    ((((StagingBelt.new 1024).write 512).2.write 512).2.write 1).1 = ⟨2, 0, 1⟩ ∧
    ((((StagingBelt.new 1024).write 512).2.write 512).2.write 1).1.buffer_handle ≠
      ((StagingBelt.new 1024).write 512).1.buffer_handle ∧
    (((((StagingBelt.new 1024).write 512).2.write 512).2.write 1).2.stats).active_chunks =
      2 := by
  decide

/-- C10: after `insert_render(h, hd)`, `lookup_render(h)` returns
`some hd`, bumping that entry's `hit_count` (reset to 0 by the insert, so it
becomes 1) and the global hit counter, leaving the miss counter and the
compute map alone; a lookup of an absent hash returns `none`, increments
only the global miss counter and leaves both maps unchanged. The same holds
for the compute map. -/
theorem pipeline_cache_lookup_contract :
    (∀ (c : PipelineCache) (now h hd : Nat),
      ((c.cache_render_pipeline now h hd).lookup_render_pipeline h).1 = some hd ∧
      ((c.cache_render_pipeline now h hd).lookup_render_pipeline h).2.total_hits =
        c.total_hits + 1 ∧
      ((c.cache_render_pipeline now h hd).lookup_render_pipeline h).2.total_misses =
        c.total_misses ∧
      ((c.cache_render_pipeline now h hd).lookup_render_pipeline h).2.compute_pipelines =
        c.compute_pipelines ∧
      lookupAssoc (c.cache_render_pipeline now h hd).render_pipelines h =
        some ⟨hd, h, now, 0⟩ ∧
      lookupAssoc ((c.cache_render_pipeline now h hd).lookup_render_pipeline h).2.render_pipelines h =
        some ⟨hd, h, now, 1⟩) ∧
    (∀ (c : PipelineCache) (h' : Nat), lookupAssoc c.render_pipelines h' = none →
      (c.lookup_render_pipeline h').1 = none ∧
      (c.lookup_render_pipeline h').2.render_pipelines = c.render_pipelines ∧
      (c.lookup_render_pipeline h').2.compute_pipelines = c.compute_pipelines ∧
      (c.lookup_render_pipeline h').2.total_hits = c.total_hits ∧
      (c.lookup_render_pipeline h').2.total_misses = c.total_misses + 1) ∧
    (∀ (c : PipelineCache) (now h hd : Nat),
      ((c.cache_compute_pipeline now h hd).lookup_compute_pipeline h).1 = some hd ∧
      ((c.cache_compute_pipeline now h hd).lookup_compute_pipeline h).2.total_hits =
        c.total_hits + 1 ∧
      ((c.cache_compute_pipeline now h hd).lookup_compute_pipeline h).2.total_misses =
        c.total_misses ∧
      ((c.cache_compute_pipeline now h hd).lookup_compute_pipeline h).2.render_pipelines =
        c.render_pipelines ∧
      lookupAssoc (c.cache_compute_pipeline now h hd).compute_pipelines h =
        some ⟨hd, h, now, 0⟩ ∧
      lookupAssoc ((c.cache_compute_pipeline now h hd).lookup_compute_pipeline h).2.compute_pipelines h =
        some ⟨hd, h, now, 1⟩) ∧
    (∀ (c : PipelineCache) (h' : Nat), lookupAssoc c.compute_pipelines h' = none →
      (c.lookup_compute_pipeline h').1 = none ∧
      (c.lookup_compute_pipeline h').2.compute_pipelines = c.compute_pipelines ∧
      (c.lookup_compute_pipeline h').2.render_pipelines = c.render_pipelines ∧
      (c.lookup_compute_pipeline h').2.total_hits = c.total_hits ∧
      (c.lookup_compute_pipeline h').2.total_misses = c.total_misses + 1) := by
  refine ⟨?_, ?_, ?_, ?_⟩
  · intro c now h hd
    unfold PipelineCache.cache_render_pipeline PipelineCache.lookup_render_pipeline
      insertAssoc PipelineCache.lookupBump lookupAssoc
    simp
  · intro c h' hmiss
    have hb := lookupBump_none h' c.render_pipelines hmiss
    unfold PipelineCache.lookup_render_pipeline
    rw [hb]
    exact ⟨rfl, rfl, rfl, rfl, rfl⟩
  · intro c now h hd
    unfold PipelineCache.cache_compute_pipeline PipelineCache.lookup_compute_pipeline
      insertAssoc PipelineCache.lookupBump lookupAssoc
    simp
  · intro c h' hmiss
    have hb : PipelineCache.lookupBump h' c.compute_pipelines = none :=
      lookupBump_none h' c.compute_pipelines hmiss
    unfold PipelineCache.lookup_compute_pipeline
    rw [hb]
    exact ⟨rfl, rfl, rfl, rfl, rfl⟩

/-- C10 witness: inserting render pipeline 7 under hash 99 into the empty
cache and looking it up returns `some 7` with one global hit; looking up the
absent hash 42 returns `none` with one global miss and leaves the map
unchanged. -/
theorem pipeline_cache_lookup_contract_witness :
    ((PipelineCache.new.cache_render_pipeline 0 99 7).lookup_render_pipeline 99).1 =
      some 7 ∧
    ((PipelineCache.new.cache_render_pipeline 0 99 7).lookup_render_pipeline 99).2.total_hits =
      PipelineCache.new.total_hits + 1 ∧
    (PipelineCache.new.lookup_render_pipeline 42).1 = none ∧
    (PipelineCache.new.lookup_render_pipeline 42).2.total_misses =
      PipelineCache.new.total_misses + 1 := by
  have h1 := pipeline_cache_lookup_contract.1 PipelineCache.new 0 99 7
  have h2 := pipeline_cache_lookup_contract.2.1 PipelineCache.new 42 (by decide)
  exact ⟨h1.1, h1.2.1, h2.1, h2.2.2.2.2⟩

end BrowserX
